import Mathlib

/-!
Verification of the hybrid Betweenness Centrality implementation in
src/src/alg/totem_betweenness_hybrid.cu.

The per-partition algorithm state (betweenness_state_t) and the per-hook
functions are embedded shallowly:

* arrays become total functions out of ℕ, read and written only inside the
  bounds the C code touches;
* cost_t (an unsigned integer type, totem_comdef.h, outside src/) becomes ℕ
  with the sentinel INF_COST; the levels occurring in a run are far below the
  sentinel, so plain ℕ arithmetic agrees with the machine arithmetic on every
  state we reason about, and the only place the code decrements an unsigned
  level (the backward hook) is reached with level ≥ 1 because every partition
  increments its level once per forward superstep in lockstep;
* uint32_t path counts become ℕ (the claims under study do not exercise
  wrap-around), score_t (float) becomes ℚ, so the algebra of sums and
  quotients is exact;
* the OpenMP / CUDA parallel loops write disjoint locations under the
  guards proved below, so they are embedded as sequential folds;
* the aliased views (numSPs_f into the outbox push buffers, delta[q] into
  the outbox pull buffers, installed by betweenness_forward and
  betweenness_backward) are embedded as a dispatch on the target partition
  id, which is exactly what the pointer assignment achieves;
* the grooves pull_values buffer is reused by the code under three element
  types (cost_t for the distance sync, uint32_t for the numSPs sync, score_t
  for the delta gather); the model splits it into an ℕ-valued view
  (outPullN/inPullN) and a ℚ-valued view (outPullS/inPullS).
-/

set_option maxHeartbeats 1000000

/-- Modelled from the spec: INF_COST is the sentinel for an unreached vertex
(totem_comdef.h, outside src/); it must be distinct from any valid BFS level. -/
def INF_COST : ℕ := 65535

/-- Modelled from the spec: CENTRALITY_EXACT is the sentinel epsilon value
requesting exact betweenness (totem_centrality.h, outside src/); typically 0.0. -/
def CENTRALITY_EXACT : ℚ := 0

/-- Write x at index i of an array modelled as a function. -/
def upd1 {α : Type} (f : ℕ → α) (i : ℕ) (x : α) : ℕ → α :=
  fun j => if j = i then x else f j

/-- Write x at index j of the array for partition p in a per-partition family. -/
def upd2 {α : Type} (f : ℕ → ℕ → α) (p j : ℕ) (x : α) : ℕ → ℕ → α :=
  fun q i => if q = p ∧ i = j then x else f q i

@[simp] theorem upd1_self {α : Type} (f : ℕ → α) (i : ℕ) (x : α) : upd1 f i x i = x := by
  simp [upd1]

theorem upd1_ne {α : Type} (f : ℕ → α) (i : ℕ) (x : α) {j : ℕ} (h : j ≠ i) :
    upd1 f i x j = f j := by
  simp [upd1, h]

theorem upd1_upd1 {α : Type} (f : ℕ → α) (i : ℕ) (x y : α) :
    upd1 (upd1 f i x) i y = upd1 f i y := by
  funext j; by_cases h : j = i <;> simp [upd1, h]

@[simp] theorem upd2_self {α : Type} (f : ℕ → ℕ → α) (p j : ℕ) (x : α) :
    upd2 f p j x p j = x := by
  simp [upd2]

theorem upd2_ne {α : Type} (f : ℕ → ℕ → α) (p j : ℕ) (x : α) {q i : ℕ}
    (h : ¬(q = p ∧ i = j)) : upd2 f p j x q i = f q i := by
  simp [upd2, h]

/-- The engine-side per-partition subgraph and id map (partition_t, engine
headers, outside src/): a CSR subgraph whose edges hold encoded neighbour ids,
decoded as (GET_PARTITION_ID, GET_VERTEX_ID); for a remote neighbour the
vertex id is the slot in the outbox/mirror arrays for that partition.
map translates a partition-local id back to the engine-wide id. -/
structure partition_t where
  id : ℕ
  vertex_count : ℕ
  vertices : ℕ → ℕ
  edges : ℕ → ℕ × ℕ
  map : ℕ → ℕ

/-- Modelled from the spec: the grooves boundary tables shared by a pair of
partitions. obCnt p q is the count of partition p's outbox towards q (equal to
the count of q's inbox from p), and obNbrs p q maps each slot of that box to
the local vertex id on q it stands for (the rmt_nbrs array). -/
structure engine_t where
  pcount : ℕ
  parts : ℕ → partition_t
  obCnt : ℕ → ℕ → ℕ
  obNbrs : ℕ → ℕ → ℕ → ℕ

/-- The per-partition algorithm state betweenness_state_t.  dist q / numSPs q
are the distance / numSPs arrays for view q (authoritative for the own id,
slot-indexed mirrors otherwise); delta is the local delta array
delta[par->id]; outPush q is outbox[q].push_values; inPush q is
inbox[q].push_values; outPullN/outPullS q are outbox[q].pull_values under the
ℕ-valued (cost_t / uint32_t) and the ℚ-valued (score_t) view, and
inPullN/inPullS the same views of inbox[q].pull_values. -/
@[ext] structure betweenness_state_t where
  dist : ℕ → ℕ → ℕ
  numSPs : ℕ → ℕ → ℕ
  delta : ℕ → ℚ
  betweenness : ℕ → ℚ
  level : ℕ
  done : Bool
  outPush : ℕ → ℕ → ℕ
  inPush : ℕ → ℕ → ℕ
  outPullN : ℕ → ℕ → ℕ
  inPullN : ℕ → ℕ → ℕ
  outPullS : ℕ → ℕ → ℚ
  inPullS : ℕ → ℕ → ℚ

/-- Edge indices of vertex v in the CSR subgraph:
[vertices v, vertices (v+1)). -/
def edge_ids (par : partition_t) (v : ℕ) : List ℕ :=
  List.range' (par.vertices v) (par.vertices (v + 1) - par.vertices v)

/-- One iteration of the neighbour loop shared by forward_process_neighbors
(GPU) and the inner loop of betweenness_forward_cpu.  The write target
numSPs_f[nbr_pid] is the local numSPs array when nbr_pid is the own partition
and outbox[nbr_pid].push_values otherwise; betweenness_forward installs this
alias before the kernel runs, so the embedding dispatches on nbr_pid.  The
block-shared finished flag and the final conditional write of the global done
flag only ever clear the flag, so the embedding clears state.done directly. -/
def forward_process_edge (par : partition_t) (v_numSPs : ℕ) (nbrEnc : ℕ × ℕ)
    (s : betweenness_state_t) : betweenness_state_t :=
  let nbr_pid := nbrEnc.1
  let nbr := nbrEnc.2
  let s1 := if s.dist nbr_pid nbr = INF_COST then
      { s with dist := upd2 s.dist nbr_pid nbr (s.level + 1), done := false }
    else s
  if s1.dist nbr_pid nbr = s1.level + 1 then
    (if nbr_pid = par.id then
      { s1 with numSPs := upd2 s1.numSPs nbr_pid nbr (s1.numSPs nbr_pid nbr + v_numSPs) }
    else
      { s1 with outPush := upd2 s1.outPush nbr_pid nbr (s1.outPush nbr_pid nbr + v_numSPs) })
  else s1

/-- betweenness_forward_cpu: for every local vertex at the current level,
process all of its neighbours with forward_process_edge.  numSPs[v] is re-read
at each edge, as in the source. -/
def betweenness_forward_cpu (par : partition_t) (s : betweenness_state_t) :
    betweenness_state_t :=
  (List.range par.vertex_count).foldl (fun t v =>
    if t.dist par.id v = t.level then
      (edge_ids par v).foldl
        (fun t e => forward_process_edge par (t.numSPs par.id v) (par.edges e) t) t
    else t) s

/-- betweenness_forward: the forward kernel hook.  The numSPs_f alias
installation is embedded inside forward_process_edge; the hook returns early
on an empty partition and increments the level once per superstep. -/
def betweenness_forward (par : partition_t) (s : betweenness_state_t) :
    betweenness_state_t :=
  if par.vertex_count = 0 then s else
  let s1 := betweenness_forward_cpu par s
  { s1 with level := s1.level + 1 }

/-- Body of the loop of betweenness_scatter_cpu for inbox slot i of the inbox
from partition rmt; betweenness_scatter_kernel (GPU) runs the identical body
with one thread per slot.  inbox->rmt_nbrs is obNbrs rmt par.id. -/
def betweenness_scatter_slot (cfg : engine_t) (par : partition_t) (rmt i : ℕ)
    (s : betweenness_state_t) : betweenness_state_t :=
  if s.inPush rmt i ≠ 0 then
    let vid := cfg.obNbrs rmt par.id i
    let s1 := if s.dist par.id vid = INF_COST then
        { s with dist := upd2 s.dist par.id vid s.level }
      else s
    if s1.dist par.id vid = s1.level then
      { s1 with numSPs := upd2 s1.numSPs par.id vid (s1.numSPs par.id vid + s.inPush rmt i) }
    else s1
  else s

/-- betweenness_scatter_cpu over the whole inbox from partition rmt. -/
def betweenness_scatter_cpu (cfg : engine_t) (par : partition_t) (rmt : ℕ)
    (s : betweenness_state_t) : betweenness_state_t :=
  (List.range (cfg.obCnt rmt par.id)).foldl
    (fun t i => betweenness_scatter_slot cfg par rmt i t) s

/-- betweenness_scatter_forward: the forward scatter hook, consuming the inbox
of every remote partition with a non-empty boundary. -/
def betweenness_scatter_forward (cfg : engine_t) (par : partition_t)
    (s : betweenness_state_t) : betweenness_state_t :=
  if par.vertex_count = 0 then s else
  (List.range cfg.pcount).foldl (fun t rmt =>
    if rmt = par.id ∨ cfg.obCnt rmt par.id = 0 then t
    else betweenness_scatter_cpu cfg par rmt t) s

/-- Normal form of forward_process_edge: the three-way case split the source
performs on the neighbour's distance. -/
theorem forward_process_edge_eq (par : partition_t) (v : ℕ) (q i : ℕ)
    (s : betweenness_state_t) :
    forward_process_edge par v (q, i) s =
      if s.dist q i = INF_COST then
        (if q = par.id then
          { s with dist := upd2 s.dist q i (s.level + 1), done := false,
                   numSPs := upd2 s.numSPs q i (s.numSPs q i + v) }
        else
          { s with dist := upd2 s.dist q i (s.level + 1), done := false,
                   outPush := upd2 s.outPush q i (s.outPush q i + v) })
      else if s.dist q i = s.level + 1 then
        (if q = par.id then
          { s with numSPs := upd2 s.numSPs q i (s.numSPs q i + v) }
        else
          { s with outPush := upd2 s.outPush q i (s.outPush q i + v) })
      else s := by
  by_cases h1 : s.dist q i = INF_COST
  · by_cases hq : q = par.id
    · subst hq; simp [forward_process_edge, h1, upd2_self]
    · simp [forward_process_edge, h1, hq, upd2_self]
  · simp only [forward_process_edge]
    rw [if_neg h1, if_neg h1]

/-- C2: in the forward kernel, for a local vertex v at the current level and an
encoded neighbour (q, i) of v: if the neighbour's distance entry is INF_COST,
it is set to level + 1 and the partition's done flag is cleared; then, if the
(possibly just updated) distance entry equals level + 1, numSPs[v] is added
into numSPs_f[q][i], which is the local numSPs array when q is the own
partition and the outbox push buffer destined for q otherwise; in all other
cases numSPs_f and the push buffers are untouched. -/
theorem claim_C2_forward_kernel (par : partition_t) (v_numSPs : ℕ) (q i : ℕ)
    (s : betweenness_state_t) :
    (s.dist q i = INF_COST →
      (forward_process_edge par v_numSPs (q, i) s).dist q i = s.level + 1 ∧
      (forward_process_edge par v_numSPs (q, i) s).done = false) ∧
    (s.dist q i ≠ INF_COST →
      (forward_process_edge par v_numSPs (q, i) s).dist q i = s.dist q i ∧
      (forward_process_edge par v_numSPs (q, i) s).done = s.done) ∧
    ((forward_process_edge par v_numSPs (q, i) s).dist q i = s.level + 1 →
      (q = par.id →
        (forward_process_edge par v_numSPs (q, i) s).numSPs q i =
          s.numSPs q i + v_numSPs ∧
        (forward_process_edge par v_numSPs (q, i) s).outPush = s.outPush) ∧
      (q ≠ par.id →
        (forward_process_edge par v_numSPs (q, i) s).outPush q i =
          s.outPush q i + v_numSPs ∧
        (forward_process_edge par v_numSPs (q, i) s).numSPs = s.numSPs)) ∧
    ((forward_process_edge par v_numSPs (q, i) s).dist q i ≠ s.level + 1 →
      (forward_process_edge par v_numSPs (q, i) s).numSPs = s.numSPs ∧
      (forward_process_edge par v_numSPs (q, i) s).outPush = s.outPush) := by
  rw [forward_process_edge_eq]
  by_cases h1 : s.dist q i = INF_COST
  · rw [if_pos h1]
    by_cases hq : q = par.id
    · rw [if_pos hq]
      refine ⟨fun _ => ⟨upd2_self s.dist q i (s.level + 1), rfl⟩,
        fun h => absurd h1 h,
        fun _ => ⟨fun _ => ⟨?_, rfl⟩, fun hq2 => absurd hq hq2⟩,
        fun h => absurd (upd2_self s.dist q i (s.level + 1)) h⟩
      exact upd2_self s.numSPs q i (s.numSPs q i + v_numSPs)
    · rw [if_neg hq]
      refine ⟨fun _ => ⟨upd2_self s.dist q i (s.level + 1), rfl⟩,
        fun h => absurd h1 h,
        fun _ => ⟨fun hq2 => absurd hq2 hq, fun _ => ⟨?_, rfl⟩⟩,
        fun h => absurd (upd2_self s.dist q i (s.level + 1)) h⟩
      exact upd2_self s.outPush q i (s.outPush q i + v_numSPs)
  · rw [if_neg h1]
    by_cases h2 : s.dist q i = s.level + 1
    · rw [if_pos h2]
      by_cases hq : q = par.id
      · rw [if_pos hq]
        exact ⟨fun h => absurd h h1, fun _ => ⟨rfl, rfl⟩,
          fun _ => ⟨fun _ => ⟨upd2_self s.numSPs q i (s.numSPs q i + v_numSPs), rfl⟩,
            fun hq2 => absurd hq hq2⟩,
          fun h => absurd h2 h⟩
      · rw [if_neg hq]
        exact ⟨fun h => absurd h h1, fun _ => ⟨rfl, rfl⟩,
          fun _ => ⟨fun hq2 => absurd hq2 hq,
            fun _ => ⟨upd2_self s.outPush q i (s.outPush q i + v_numSPs), rfl⟩⟩,
          fun h => absurd h2 h⟩
    · rw [if_neg h2]
      exact ⟨fun h => absurd h h1, fun _ => ⟨rfl, rfl⟩,
        fun h => absurd h h2, fun _ => ⟨rfl, rfl⟩⟩

/-- A small concrete two-partition configuration used to evaluate the theorems.
Partition 0 holds vertex a (local id 0) with the single edge a -> s encoded as
(1, 0); partition 1 holds the source s (local id 0) with the single edge
s -> a encoded as (0, 0).  Each side's boundary towards the other has one
slot, standing for the other side's vertex 0. -/
def exPar0 : partition_t :=
  { id := 0, vertex_count := 1, vertices := fun v => v,
    edges := fun _ => (1, 0), map := fun v => v }

def exPar1 : partition_t :=
  { id := 1, vertex_count := 1, vertices := fun v => v,
    edges := fun _ => (0, 0), map := fun v => 1 + v }

def exCfg : engine_t :=
  { pcount := 2,
    parts := fun p => if p = 0 then exPar0 else exPar1,
    obCnt := fun p q => if (p = 0 ∧ q = 1) ∨ (p = 1 ∧ q = 0) then 1 else 0,
    obNbrs := fun _ _ _ => 0 }

/-- A concrete state for partition 1 right after the forward per-source
initialization with source (1, 0). -/
def exState1 : betweenness_state_t :=
  { dist := fun q i => if q = 1 ∧ i = 0 then 0 else INF_COST,
    numSPs := fun q i => if q = 1 ∧ i = 0 then 1 else 0,
    delta := fun _ => 0, betweenness := fun _ => 0,
    level := 0, done := true,
    outPush := fun _ _ => 0, inPush := fun _ _ => 0,
    outPullN := fun _ _ => 0, inPullN := fun _ _ => 0,
    outPullS := fun _ _ => 0, inPullS := fun _ _ => 0 }

/-- Witness for C2: processing the remote edge s -> a of the source at level 0
discovers the boundary slot (sets its mirror distance to 1, clears done) and
adds numSPs[s] = 1 into the outbox push buffer towards partition 0. -/
theorem claim_C2_forward_kernel_witness :
    exState1.dist 0 0 = INF_COST ∧
    (forward_process_edge exPar1 1 (0, 0) exState1).dist 0 0 = exState1.level + 1 ∧
    (forward_process_edge exPar1 1 (0, 0) exState1).done = false ∧
    (forward_process_edge exPar1 1 (0, 0) exState1).outPush 0 0 =
      exState1.outPush 0 0 + 1 := by
  have h := claim_C2_forward_kernel exPar1 1 0 0 exState1
  have hinf : exState1.dist 0 0 = INF_COST := by decide
  have hd := h.1 hinf
  refine ⟨hinf, hd.1, hd.2, ?_⟩
  have hq : (0 : ℕ) ≠ exPar1.id := by decide
  exact ((h.2.2.1 hd.1).2 hq).1

/-- Normal form of betweenness_scatter_slot: the case split the source performs
on the pushed value and on the target vertex's distance.  When the distance
was INF_COST it is set to level, after which the second guard always holds, so
the pushed value is also added. -/
theorem betweenness_scatter_slot_eq (cfg : engine_t) (par : partition_t)
    (rmt i : ℕ) (s : betweenness_state_t) :
    betweenness_scatter_slot cfg par rmt i s =
      if s.inPush rmt i = 0 then s else
      if s.dist par.id (cfg.obNbrs rmt par.id i) = INF_COST then
        { s with
          dist := upd2 s.dist par.id (cfg.obNbrs rmt par.id i) s.level,
          numSPs := upd2 s.numSPs par.id (cfg.obNbrs rmt par.id i)
            (s.numSPs par.id (cfg.obNbrs rmt par.id i) + s.inPush rmt i) }
      else if s.dist par.id (cfg.obNbrs rmt par.id i) = s.level then
        { s with
          numSPs := upd2 s.numSPs par.id (cfg.obNbrs rmt par.id i)
            (s.numSPs par.id (cfg.obNbrs rmt par.id i) + s.inPush rmt i) }
      else s := by
  by_cases h0 : s.inPush rmt i = 0
  · simp [betweenness_scatter_slot, h0]
  · by_cases h1 : s.dist par.id (cfg.obNbrs rmt par.id i) = INF_COST
    · simp [betweenness_scatter_slot, h0, h1, upd2_self]
    · simp only [betweenness_scatter_slot]
      rw [if_pos h0, if_neg h0, if_neg h1, if_neg h1]

/-- C3: the forward scatter, for inbox slot i from partition rmt with local
target vid = rmt_nbrs[i]: when the pushed value is non-zero it sets
distance[vid] to the current level if distance[vid] was INF_COST, and then, if
the (possibly just updated) distance[vid] equals the current level, adds the
pushed value into numSPs[vid]; a slot whose pushed value is zero leaves the
state unchanged. -/
theorem claim_C3_scatter (cfg : engine_t) (par : partition_t) (rmt i : ℕ)
    (s : betweenness_state_t) :
    (s.inPush rmt i = 0 → betweenness_scatter_slot cfg par rmt i s = s) ∧
    (s.inPush rmt i ≠ 0 →
      (s.dist par.id (cfg.obNbrs rmt par.id i) = INF_COST →
        (betweenness_scatter_slot cfg par rmt i s).dist par.id
          (cfg.obNbrs rmt par.id i) = s.level) ∧
      (s.dist par.id (cfg.obNbrs rmt par.id i) ≠ INF_COST →
        (betweenness_scatter_slot cfg par rmt i s).dist par.id
          (cfg.obNbrs rmt par.id i) = s.dist par.id (cfg.obNbrs rmt par.id i)) ∧
      ((betweenness_scatter_slot cfg par rmt i s).dist par.id
          (cfg.obNbrs rmt par.id i) = s.level →
        (betweenness_scatter_slot cfg par rmt i s).numSPs par.id
          (cfg.obNbrs rmt par.id i) =
          s.numSPs par.id (cfg.obNbrs rmt par.id i) + s.inPush rmt i) ∧
      ((betweenness_scatter_slot cfg par rmt i s).dist par.id
          (cfg.obNbrs rmt par.id i) ≠ s.level →
        (betweenness_scatter_slot cfg par rmt i s).numSPs = s.numSPs)) := by
  rw [betweenness_scatter_slot_eq]
  by_cases h0 : s.inPush rmt i = 0
  · rw [if_pos h0]
    exact ⟨fun _ => rfl, fun h => absurd h0 h⟩
  · rw [if_neg h0]
    refine ⟨fun h => absurd h h0, fun _ => ?_⟩
    by_cases h1 : s.dist par.id (cfg.obNbrs rmt par.id i) = INF_COST
    · rw [if_pos h1]
      refine ⟨fun _ => upd2_self s.dist par.id (cfg.obNbrs rmt par.id i) s.level,
        fun h => absurd h1 h,
        fun _ => upd2_self s.numSPs par.id (cfg.obNbrs rmt par.id i) _,
        fun h => absurd (upd2_self s.dist par.id (cfg.obNbrs rmt par.id i) s.level) h⟩
    · rw [if_neg h1]
      by_cases h2 : s.dist par.id (cfg.obNbrs rmt par.id i) = s.level
      · rw [if_pos h2]
        exact ⟨fun h => absurd h h1, fun _ => rfl,
          fun _ => upd2_self s.numSPs par.id (cfg.obNbrs rmt par.id i) _,
          fun h => absurd h2 h⟩
      · rw [if_neg h2]
        exact ⟨fun h => absurd h h1, fun _ => rfl,
          fun h => absurd h h2, fun _ => rfl⟩

/-- A concrete state for partition 0 at superstep 2: the inbox from
partition 1 carries the pushed value 1 for slot 0 (local vertex a), whose
distance is still INF_COST, and the level is 1. -/
def exState0 : betweenness_state_t :=
  { dist := fun _ _ => INF_COST,
    numSPs := fun _ _ => 0,
    delta := fun _ => 0, betweenness := fun _ => 0,
    level := 1, done := true,
    outPush := fun _ _ => 0,
    inPush := fun q i => if q = 1 ∧ i = 0 then 1 else 0,
    outPullN := fun _ _ => 0, inPullN := fun _ _ => 0,
    outPullS := fun _ _ => 0, inPullS := fun _ _ => 0 }

/-- Witness for C3: the pushed value 1 discovers local vertex 0 of partition 0
at level 1 and accumulates the value into its numSPs. -/
theorem claim_C3_scatter_witness :
    exState0.inPush 1 0 ≠ 0 ∧
    exState0.dist 0 0 = INF_COST ∧
    (betweenness_scatter_slot exCfg exPar0 1 0 exState0).dist 0 0 = exState0.level ∧
    (betweenness_scatter_slot exCfg exPar0 1 0 exState0).numSPs 0 0 =
      exState0.numSPs 0 0 + exState0.inPush 1 0 := by
  have h := claim_C3_scatter exCfg exPar0 1 0 exState0
  have h0 : exState0.inPush 1 0 ≠ 0 := by decide
  have h1 : exState0.dist 0 0 = INF_COST := by decide
  have hd := (h.2 h0).1 h1
  exact ⟨h0, h1, hd, (h.2 h0).2.2.1 hd⟩

/-- betweenness_init_forward: the per-source forward initialization.  For every
partition view q the code memsets count entries (the local vertex count for
the own view, the outbox count for a remote mirror) of distance to INF_COST
and of numSPs to 0, then seeds the source vertex when it is local.
engine_set_outbox(par->id, 0) is modelled from the spec as zeroing the push
buffers of all of the partition's outboxes; finally the level is reset to 0. -/
def betweenness_init_forward (cfg : engine_t) (src_pid src_vid : ℕ)
    (par : partition_t) (s : betweenness_state_t) : betweenness_state_t :=
  if par.vertex_count = 0 then s else
  let cnt : ℕ → ℕ :=
    fun pid => if pid = par.id then par.vertex_count else cfg.obCnt par.id pid
  let dist0 : ℕ → ℕ → ℕ :=
    fun q j => if q < cfg.pcount ∧ j < cnt q then INF_COST else s.dist q j
  let num0 : ℕ → ℕ → ℕ :=
    fun q j => if q < cfg.pcount ∧ j < cnt q then 0 else s.numSPs q j
  let dist1 := if src_pid = par.id then upd2 dist0 par.id src_vid 0 else dist0
  let num1 := if src_pid = par.id then upd2 num0 par.id src_vid 1 else num0
  { s with
    dist := dist1
    numSPs := num1
    outPush := fun q j =>
      if q < cfg.pcount ∧ q ≠ par.id ∧ j < cfg.obCnt par.id q then 0
      else s.outPush q j
    level := 0 }

/-- The engine applies the per-source forward init hook to every partition. -/
def betweenness_init_forward_all (cfg : engine_t) (src_pid src_vid : ℕ)
    (gs : ℕ → betweenness_state_t) : ℕ → betweenness_state_t :=
  fun p => if p < cfg.pcount then
    betweenness_init_forward cfg src_pid src_vid (cfg.parts p) (gs p)
  else gs p

/-- C4: immediately after the per-source forward initialization on every
partition, the source's own entry holds distance 0 and numSPs 1, every other
distance entry in every initialized range (local array and every remote
mirror) holds INF_COST and every other numSPs entry holds 0, the outbox push
buffers are zeroed, and the level is 0. -/
theorem claim_C4_init_forward (cfg : engine_t) (src_pid src_vid : ℕ)
    (gs : ℕ → betweenness_state_t)
    (hid : ∀ p, p < cfg.pcount → (cfg.parts p).id = p)
    (hsrc : src_pid < cfg.pcount)
    (hsv : src_vid < (cfg.parts src_pid).vertex_count) :
    ∀ p, p < cfg.pcount → (cfg.parts p).vertex_count ≠ 0 →
      (betweenness_init_forward_all cfg src_pid src_vid gs p).level = 0 ∧
      (∀ q j, q < cfg.pcount →
        j < (if q = p then (cfg.parts p).vertex_count else cfg.obCnt p q) →
        ((betweenness_init_forward_all cfg src_pid src_vid gs p).dist q j =
          if p = src_pid ∧ q = src_pid ∧ j = src_vid then 0 else INF_COST) ∧
        ((betweenness_init_forward_all cfg src_pid src_vid gs p).numSPs q j =
          if p = src_pid ∧ q = src_pid ∧ j = src_vid then 1 else 0)) ∧
      (∀ q j, q < cfg.pcount → q ≠ p → j < cfg.obCnt p q →
        (betweenness_init_forward_all cfg src_pid src_vid gs p).outPush q j = 0) := by
  intro p hp hne
  have hidp := hid p hp
  simp only [betweenness_init_forward_all, if_pos hp, betweenness_init_forward,
    if_neg hne, hidp]
  refine ⟨trivial, ?_, ?_⟩
  · intro q j hq hj
    have hcnt : (q < cfg.pcount ∧
        j < (if q = p then (cfg.parts p).vertex_count else cfg.obCnt p q)) :=
      ⟨hq, hj⟩
    by_cases hps : src_pid = p
    · rw [if_pos hps, if_pos hps]
      by_cases hqj : q = p ∧ j = src_vid
      · obtain ⟨hq1, hj1⟩ := hqj
        subst hq1; subst hj1
        constructor
        · rw [upd2_self]
          rw [if_pos ⟨hps.symm, hps.symm, rfl⟩]
        · rw [upd2_self]
          rw [if_pos ⟨hps.symm, hps.symm, rfl⟩]
      · rw [upd2_ne _ _ _ _ hqj, upd2_ne _ _ _ _ hqj]
        have hcond : ¬(p = src_pid ∧ q = src_pid ∧ j = src_vid) := by
          intro hc
          exact hqj ⟨hc.2.1.trans hps, hc.2.2⟩
        rw [if_pos hcnt, if_pos hcnt, if_neg hcond, if_neg hcond]
        exact ⟨rfl, rfl⟩
    · rw [if_neg hps, if_neg hps]
      have hcond : ¬(p = src_pid ∧ q = src_pid ∧ j = src_vid) := by
        intro hc
        exact hps hc.1.symm
      rw [if_pos hcnt, if_pos hcnt, if_neg hcond, if_neg hcond]
      exact ⟨rfl, rfl⟩
  · intro q j hq hqp hj
    rw [if_pos ⟨hq, hqp, hj⟩]

/-- A state filled with junk values, used to check that the initialization
overwrites everything the claims mention. -/
def exJunk : betweenness_state_t :=
  { dist := fun _ _ => 7, numSPs := fun _ _ => 7,
    delta := fun _ => 7, betweenness := fun _ => 7,
    level := 9, done := false,
    outPush := fun _ _ => 7, inPush := fun _ _ => 7,
    outPullN := fun _ _ => 7, inPullN := fun _ _ => 7,
    outPullS := fun _ _ => 7, inPullS := fun _ _ => 7 }

/-- Witness for C4 on the concrete two-partition configuration with source
(1, 0): the source partition seeds its own entry, everything else becomes
INF_COST / 0, outbox pushes are zeroed, levels are 0. -/
theorem claim_C4_init_forward_witness :
    (betweenness_init_forward_all exCfg 1 0 (fun _ => exJunk) 1).level = 0 ∧
    (betweenness_init_forward_all exCfg 1 0 (fun _ => exJunk) 1).dist 1 0 = 0 ∧
    (betweenness_init_forward_all exCfg 1 0 (fun _ => exJunk) 1).numSPs 1 0 = 1 ∧
    (betweenness_init_forward_all exCfg 1 0 (fun _ => exJunk) 1).dist 0 0 = INF_COST ∧
    (betweenness_init_forward_all exCfg 1 0 (fun _ => exJunk) 0).dist 0 0 = INF_COST ∧
    (betweenness_init_forward_all exCfg 1 0 (fun _ => exJunk) 0).numSPs 1 0 = 0 ∧
    (betweenness_init_forward_all exCfg 1 0 (fun _ => exJunk) 0).outPush 1 0 = 0 := by
  have h1 := claim_C4_init_forward exCfg 1 0 (fun _ => exJunk)
    (by decide) (by decide) (by decide) 1 (by decide) (by decide)
  have h0 := claim_C4_init_forward exCfg 1 0 (fun _ => exJunk)
    (by decide) (by decide) (by decide) 0 (by decide) (by decide)
  refine ⟨h1.1, ?_, ?_, ?_, ?_, ?_, ?_⟩
  · have := (h1.2.1 1 0 (by decide) (by decide)).1
    simpa using this
  · have := (h1.2.1 1 0 (by decide) (by decide)).2
    simpa using this
  · have := (h1.2.1 0 0 (by decide) (by decide)).1
    simpa using this
  · have := (h0.2.1 0 0 (by decide) (by decide)).1
    simpa using this
  · have := (h0.2.1 1 0 (by decide) (by decide)).2
    simpa using this
  · exact h0.2.2 1 0 (by decide) (by decide) (by decide)

/-- The delta read performed by the backward kernels through state->delta:
betweenness_backward installs delta[pid] = outbox[pid].pull_values for every
remote pid before dispatching, so a read of delta[q][j] reaches the local
delta array when q is the own partition and the outbox pull buffer (the value
the remote gather staged, after the engine transferred it) otherwise. -/
def delta_of (par : partition_t) (s : betweenness_state_t) (q j : ℕ) : ℚ :=
  if q = par.id then s.delta j else s.outPullS q j

/-- One edge's contribution inside backward_process_neighbors /
betweenness_backward_cpu: if the neighbour sits one level deeper, contribute
(numSPs[v] / numSPs[nbr]) * (delta[nbr] + 1), else nothing. -/
def bwd_term (par : partition_t) (s : betweenness_state_t) (v_numSPs : ℕ)
    (nbrEnc : ℕ × ℕ) : ℚ :=
  if s.dist nbrEnc.1 nbrEnc.2 = s.level + 1 then
    ((v_numSPs : ℚ) / ((s.numSPs nbrEnc.1 nbrEnc.2 : ℕ) : ℚ)) *
      (delta_of par s nbrEnc.1 nbrEnc.2 + 1)
  else 0

/-- The body of the outer vertex loop of betweenness_backward_cpu: for a
vertex at the current level, accumulate every edge's contribution into
delta[v] and finally add delta[v] into betweenness[v]. -/
def backward_vertex (par : partition_t) (t : betweenness_state_t) (v : ℕ) :
    betweenness_state_t :=
  if t.dist par.id v = t.level then
    let t1 := (edge_ids par v).foldl (fun t e =>
      { t with delta := upd1 t.delta v (t.delta v + bwd_term par t (t.numSPs par.id v) (par.edges e)) }) t
    { t1 with betweenness := upd1 t1.betweenness v (t1.betweenness v + t1.delta v) }
  else t

/-- betweenness_backward_cpu: the backward kernel over all local vertices. -/
def betweenness_backward_cpu (par : partition_t) (s : betweenness_state_t) :
    betweenness_state_t :=
  (List.range par.vertex_count).foldl (backward_vertex par) s

/-- The total contribution of v's edge list, evaluated on a fixed state. -/
def edge_sum (par : partition_t) (s : betweenness_state_t) (v : ℕ) : ℚ :=
  ((edge_ids par v).map
    (fun e => bwd_term par s (s.numSPs par.id v) (par.edges e))).sum

/-- bwd_term only reads dist, numSPs, level, the pull buffer, and the delta
entries of vertices one level deeper. -/
theorem bwd_term_congr (par : partition_t) {s s' : betweenness_state_t}
    (hd : s'.dist = s.dist) (hn : s'.numSPs = s.numSPs) (hl : s'.level = s.level)
    (hp : s'.outPullS = s.outPullS)
    (hδ : ∀ w, s.dist par.id w = s.level + 1 → s'.delta w = s.delta w)
    (vN : ℕ) (enc : ℕ × ℕ) :
    bwd_term par s' vN enc = bwd_term par s vN enc := by
  unfold bwd_term delta_of
  rw [hd, hn, hl, hp]
  by_cases hg : s.dist enc.1 enc.2 = s.level + 1
  · rw [if_pos hg, if_pos hg]
    by_cases hq : enc.1 = par.id
    · rw [if_pos hq, if_pos hq, hδ enc.2 (hq ▸ hg)]
    · rw [if_neg hq, if_neg hq]
  · rw [if_neg hg, if_neg hg]

/-- edge_sum only reads dist, numSPs, level, the pull buffer, and the delta
entries of vertices one level deeper. -/
theorem edge_sum_congr (par : partition_t) {s s' : betweenness_state_t}
    (hd : s'.dist = s.dist) (hn : s'.numSPs = s.numSPs) (hl : s'.level = s.level)
    (hp : s'.outPullS = s.outPullS)
    (hδ : ∀ w, s.dist par.id w = s.level + 1 → s'.delta w = s.delta w)
    (v : ℕ) : edge_sum par s' v = edge_sum par s v := by
  unfold edge_sum
  rw [hn]
  exact congrArg List.sum
    (List.map_congr_left (fun e _ => bwd_term_congr par hd hn hl hp hδ _ _))

theorem upd1_same_val {α : Type} (f : ℕ → α) (i : ℕ) : upd1 f i (f i) = f := by
  funext j; by_cases hj : j = i <;> simp [upd1, hj]

/-- The inner edge fold of backward_vertex accumulates, into delta[v] alone,
the sum of the edge contributions evaluated on the initial state: a vertex at
the current level never reads its own delta entry through bwd_term, because
bwd_term only reads entries one level deeper. -/
theorem bwd_inner_fold (par : partition_t) (v : ℕ) :
    ∀ (l : List ℕ) (s : betweenness_state_t), s.dist par.id v = s.level →
    (l.foldl (fun t e =>
        { t with delta := upd1 t.delta v (t.delta v + bwd_term par t (t.numSPs par.id v) (par.edges e)) }) s) =
    { s with delta := upd1 s.delta v (s.delta v + (l.map (fun e => bwd_term par s (s.numSPs par.id v) (par.edges e))).sum) } := by
  intro l
  induction l with
  | nil =>
    intro s _
    simp only [List.foldl_nil, List.map_nil, List.sum_nil, add_zero, upd1_same_val]
  | cons e l ih =>
    intro s hv
    simp only [List.foldl_cons, List.map_cons, List.sum_cons]
    have hδ1 : ∀ w, s.dist par.id w = s.level + 1 →
        (upd1 s.delta v (s.delta v + bwd_term par s (s.numSPs par.id v) (par.edges e))) w =
        s.delta w := by
      intro w hw
      have hwv : w ≠ v := by
        intro he
        rw [he, hv] at hw
        omega
      exact upd1_ne _ _ _ hwv
    have hstep := ih { s with delta := upd1 s.delta v (s.delta v + bwd_term par s (s.numSPs par.id v) (par.edges e)) } hv
    rw [hstep]
    have hsum : (l.map (fun e2 => bwd_term par
        { s with delta := upd1 s.delta v (s.delta v + bwd_term par s (s.numSPs par.id v) (par.edges e)) }
        (s.numSPs par.id v) (par.edges e2))).sum =
        (l.map (fun e2 => bwd_term par s (s.numSPs par.id v) (par.edges e2))).sum :=
      congrArg List.sum (List.map_congr_left (fun e2 _ =>
        @bwd_term_congr par s
          { s with delta := upd1 s.delta v (s.delta v + bwd_term par s (s.numSPs par.id v) (par.edges e)) }
          rfl rfl rfl rfl hδ1 (s.numSPs par.id v) (par.edges e2)))
    rw [hsum]
    simp only [upd1_upd1, upd1_self, add_assoc]

/-- Normal form of backward_vertex: for a vertex at the current level the edge
contributions (evaluated on the incoming state) are accumulated into delta[v],
and the resulting delta[v] is added into betweenness[v]; other vertices leave
the state unchanged. -/
theorem backward_vertex_eq (par : partition_t) (s : betweenness_state_t) (v : ℕ) :
    backward_vertex par s v =
      if s.dist par.id v = s.level then
        { s with
          delta := upd1 s.delta v (s.delta v + edge_sum par s v)
          betweenness := upd1 s.betweenness v (s.betweenness v + (s.delta v + edge_sum par s v)) }
      else s := by
  unfold backward_vertex
  by_cases hv : s.dist par.id v = s.level
  · rw [if_pos hv, if_pos hv, bwd_inner_fold par v (edge_ids par v) s hv]
    simp only [upd1_self, edge_sum]
  · rw [if_neg hv, if_neg hv]

theorem backward_vertex_fields (par : partition_t) (s : betweenness_state_t) (v : ℕ) :
    (backward_vertex par s v).dist = s.dist ∧
    (backward_vertex par s v).numSPs = s.numSPs ∧
    (backward_vertex par s v).level = s.level ∧
    (backward_vertex par s v).outPullS = s.outPullS ∧
    (backward_vertex par s v).done = s.done ∧
    (backward_vertex par s v).outPush = s.outPush ∧
    (backward_vertex par s v).inPush = s.inPush ∧
    (backward_vertex par s v).outPullN = s.outPullN ∧
    (backward_vertex par s v).inPullN = s.inPullN ∧
    (backward_vertex par s v).inPullS = s.inPullS := by
  rw [backward_vertex_eq]
  split_ifs <;> exact ⟨rfl, rfl, rfl, rfl, rfl, rfl, rfl, rfl, rfl, rfl⟩

theorem backward_vertex_delta (par : partition_t) (s : betweenness_state_t) (v u : ℕ) :
    (backward_vertex par s v).delta u =
      if u = v ∧ s.dist par.id v = s.level then s.delta v + edge_sum par s v
      else s.delta u := by
  rw [backward_vertex_eq]
  by_cases hv : s.dist par.id v = s.level
  · rw [if_pos hv]
    by_cases huv : u = v
    · subst huv
      rw [if_pos ⟨rfl, hv⟩]
      exact upd1_self _ _ _
    · rw [if_neg (fun hc => huv hc.1)]
      exact upd1_ne _ _ _ huv
  · rw [if_neg hv, if_neg (fun hc => hv hc.2)]

theorem backward_vertex_bet (par : partition_t) (s : betweenness_state_t) (v u : ℕ) :
    (backward_vertex par s v).betweenness u =
      if u = v ∧ s.dist par.id v = s.level
      then s.betweenness v + (s.delta v + edge_sum par s v)
      else s.betweenness u := by
  rw [backward_vertex_eq]
  by_cases hv : s.dist par.id v = s.level
  · rw [if_pos hv]
    by_cases huv : u = v
    · subst huv
      rw [if_pos ⟨rfl, hv⟩]
      exact upd1_self _ _ _
    · rw [if_neg (fun hc => huv hc.1)]
      exact upd1_ne _ _ _ huv
  · rw [if_neg hv, if_neg (fun hc => hv hc.2)]

/-- The characterization of what a fold of backward_vertex over a duplicate-free
vertex list does to a state: every field except delta and betweenness is
untouched, and delta / betweenness change exactly at the listed vertices that
sit at the current level, by the edge sums evaluated on the initial state. -/
def bwd_char (par : partition_t) (l : List ℕ) (s t : betweenness_state_t) : Prop :=
  t.dist = s.dist ∧ t.numSPs = s.numSPs ∧ t.level = s.level ∧
  t.outPullS = s.outPullS ∧ t.done = s.done ∧ t.outPush = s.outPush ∧
  t.inPush = s.inPush ∧ t.outPullN = s.outPullN ∧ t.inPullN = s.inPullN ∧
  t.inPullS = s.inPullS ∧
  (∀ u, t.delta u =
    if u ∈ l ∧ s.dist par.id u = s.level then s.delta u + edge_sum par s u
    else s.delta u) ∧
  (∀ u, t.betweenness u =
    if u ∈ l ∧ s.dist par.id u = s.level
    then s.betweenness u + (s.delta u + edge_sum par s u)
    else s.betweenness u)

theorem bwd_fold_char (par : partition_t) :
    ∀ (l : List ℕ), ∀ s : betweenness_state_t, l.Nodup →
      bwd_char par l s (l.foldl (backward_vertex par) s) := by
  intro l
  induction l with
  | nil =>
    intro s _
    unfold bwd_char
    refine ⟨rfl, rfl, rfl, rfl, rfl, rfl, rfl, rfl, rfl, rfl, ?_, ?_⟩ <;>
      intro u <;> simp [List.foldl_nil]
  | cons v l2 ih =>
    intro s hnd
    obtain ⟨hvl, hnd2⟩ := List.nodup_cons.mp hnd
    unfold bwd_char
    simp only [List.foldl_cons]
    obtain ⟨hd, hn, hl, hp, hdo, hop, hip, hon, hin, his, hdel, hbet⟩ :=
      ih (backward_vertex par s v) hnd2
    obtain ⟨xd, xn, xl, xp, xdo, xop, xip, xon, xin, xis⟩ :=
      backward_vertex_fields par s v
    have hes : ∀ u, edge_sum par (backward_vertex par s v) u = edge_sum par s u := by
      intro u
      refine @edge_sum_congr par s (backward_vertex par s v) xd xn xl xp ?_ u
      intro w hw
      rw [backward_vertex_delta par s v w]
      have hwv : ¬(w = v ∧ s.dist par.id v = s.level) := by
        intro hc
        rw [hc.1] at hw
        rw [hc.2] at hw
        omega
      rw [if_neg hwv]
    refine ⟨hd.trans xd, hn.trans xn, hl.trans xl, hp.trans xp, hdo.trans xdo,
      hop.trans xop, hip.trans xip, hon.trans xon, hin.trans xin, his.trans xis,
      ?_, ?_⟩
    · intro u
      rw [hdel u, xd, xl, hes u, backward_vertex_delta par s v u]
      by_cases huv : u = v
      · subst huv
        rw [if_neg (fun hc => hvl hc.1)]
        by_cases hvv : s.dist par.id u = s.level
        · rw [if_pos ⟨rfl, hvv⟩, if_pos ⟨List.mem_cons_self u l2, hvv⟩]
        · rw [if_neg (fun hc => hvv hc.2), if_neg (fun hc => hvv hc.2)]
      · rw [if_neg (show ¬(u = v ∧ s.dist par.id v = s.level) from fun hc => huv hc.1)]
        simp only [List.mem_cons, huv, false_or]
    · intro u
      rw [hbet u, xd, xl, hes u, backward_vertex_bet par s v u,
        backward_vertex_delta par s v u]
      by_cases huv : u = v
      · subst huv
        rw [if_neg (fun hc => hvl hc.1)]
        by_cases hvv : s.dist par.id u = s.level
        · rw [if_pos ⟨rfl, hvv⟩, if_pos ⟨List.mem_cons_self u l2, hvv⟩]
        · rw [if_neg (fun hc => hvv hc.2), if_neg (fun hc => hvv hc.2)]
      · rw [if_neg (show ¬(u = v ∧ s.dist par.id v = s.level) from fun hc => huv hc.1),
          if_neg (show ¬(u = v ∧ s.dist par.id v = s.level) from fun hc => huv hc.1)]
        simp only [List.mem_cons, huv, false_or]

/-- Summing a guarded term equals summing the plain term over the filtered list. -/
theorem sum_map_ite {α : Type} (l : List α) (p : α → Prop) [DecidablePred p]
    (f : α → ℚ) :
    (l.map (fun a => if p a then f a else 0)).sum =
    ((l.filter (fun a => decide (p a))).map f).sum := by
  induction l with
  | nil => rfl
  | cons a l ih =>
    by_cases hpa : p a
    · simp [List.filter_cons, hpa, ih]
    · simp [List.filter_cons, hpa, ih]

/-- betweenness_backward: the backward kernel hook.  Before dispatching, the
source installs delta[pid] = outbox[pid].pull_values for every remote pid;
this alias is embedded in delta_of.  On an empty partition the hook does
nothing and never reports.  Otherwise the kernel runs only from the second
superstep on, the level is decremented once, and engine_report_not_finished()
(modelled as the returned flag) is called iff the decremented level is
positive.  level is an unsigned cost_t; within a backward round every
partition holds the same positive level (each was incremented once per
forward superstep), so the decrement is never applied at level 0 and
truncated ℕ subtraction is faithful. -/
def betweenness_backward (par : partition_t) (superstep : ℕ)
    (s : betweenness_state_t) : betweenness_state_t × Bool :=
  if par.vertex_count = 0 then (s, false) else
  let s1 := if 1 < superstep then betweenness_backward_cpu par s else s
  let s2 := { s1 with level := s1.level - 1 }
  (s2, decide (0 < s2.level))

/-- C1: on a superstep of the backward round after the first, the backward
kernel adds to delta[v], for every local vertex v at the current level, the
sum over v's neighbours w with distance[w] = level + 1 of
(numSPs[v] / numSPs[w]) * (delta[w] + 1), reading a remote neighbour's delta
through the pull-buffer alias (delta_of), and then adds the resulting
delta[v] into betweenness[v]; vertices whose distance is not the current
level keep their delta and betweenness. -/
theorem claim_C1_backward_kernel (par : partition_t) (superstep : ℕ)
    (s : betweenness_state_t) (hss : 1 < superstep) :
    ∀ v, v < par.vertex_count →
      (s.dist par.id v = s.level →
        (betweenness_backward par superstep s).1.delta v =
          s.delta v +
          (((edge_ids par v).filter (fun e =>
              decide (s.dist (par.edges e).1 (par.edges e).2 = s.level + 1))).map
            (fun e => ((s.numSPs par.id v : ℚ) /
                ((s.numSPs (par.edges e).1 (par.edges e).2 : ℕ) : ℚ)) *
              (delta_of par s (par.edges e).1 (par.edges e).2 + 1))).sum ∧
        (betweenness_backward par superstep s).1.betweenness v =
          s.betweenness v + (betweenness_backward par superstep s).1.delta v) ∧
      (s.dist par.id v ≠ s.level →
        (betweenness_backward par superstep s).1.delta v = s.delta v ∧
        (betweenness_backward par superstep s).1.betweenness v = s.betweenness v) := by
  intro v hv
  have hvc : ¬par.vertex_count = 0 := by omega
  obtain ⟨_, _, _, _, _, _, _, _, _, _, hdel, hbet⟩ :=
    bwd_fold_char par (List.range par.vertex_count) s (List.nodup_range par.vertex_count)
  have hmem : v ∈ List.range par.vertex_count := List.mem_range.mpr hv
  have hS : edge_sum par s v =
      (((edge_ids par v).filter (fun e =>
          decide (s.dist (par.edges e).1 (par.edges e).2 = s.level + 1))).map
        (fun e => ((s.numSPs par.id v : ℚ) /
            ((s.numSPs (par.edges e).1 (par.edges e).2 : ℕ) : ℚ)) *
          (delta_of par s (par.edges e).1 (par.edges e).2 + 1))).sum :=
    sum_map_ite (edge_ids par v)
      (fun e => s.dist (par.edges e).1 (par.edges e).2 = s.level + 1)
      (fun e => ((s.numSPs par.id v : ℚ) /
          ((s.numSPs (par.edges e).1 (par.edges e).2 : ℕ) : ℚ)) *
        (delta_of par s (par.edges e).1 (par.edges e).2 + 1))
  simp only [betweenness_backward, betweenness_backward_cpu, if_neg hvc, if_pos hss]
  constructor
  · intro hlev
    have hd := hdel v
    rw [if_pos ⟨hmem, hlev⟩] at hd
    have hb := hbet v
    rw [if_pos ⟨hmem, hlev⟩] at hb
    constructor
    · exact hd.trans (by rw [hS])
    · exact hb.trans (by rw [hd])
  · intro hlev
    have hd := hdel v
    rw [if_neg (fun hc => hlev hc.2)] at hd
    have hb := hbet v
    rw [if_neg (fun hc => hlev hc.2)] at hb
    exact ⟨hd, hb⟩

/-- A concrete backward scenario: partition 0 holds v0 (distance 1 = level,
numSPs 1) with a local neighbour v1 at distance 2 (numSPs 2, delta 5) and a
remote neighbour in partition 1 at mirror distance 2 (mirror numSPs 2, delta
3 staged in the pull buffer). -/
def exParB : partition_t :=
  { id := 0, vertex_count := 2,
    vertices := fun v => if v = 0 then 0 else 2,
    edges := fun e => if e = 0 then (0, 1) else (1, 0),
    map := fun v => v }

def exStateB : betweenness_state_t :=
  { dist := fun q i => if q = 0 then (if i = 0 then 1 else 2) else 2,
    numSPs := fun q i => if q = 0 ∧ i = 0 then 1 else 2,
    delta := fun i => if i = 1 then 5 else 0,
    betweenness := fun _ => 10,
    level := 1, done := true,
    outPush := fun _ _ => 0, inPush := fun _ _ => 0,
    outPullN := fun _ _ => 0, inPullN := fun _ _ => 0,
    outPullS := fun q i => if q = 1 ∧ i = 0 then 3 else 0,
    inPullS := fun _ _ => 0 }

/-- Witness for C1: delta[v0] becomes (1/2)*(5+1) + (1/2)*(3+1) = 5 and
betweenness[v0] becomes 10 + 5 = 15, while v1 (not at the level) keeps its
delta and betweenness. -/
theorem claim_C1_backward_kernel_witness :
    (betweenness_backward exParB 2 exStateB).1.delta 0 = 5 ∧
    (betweenness_backward exParB 2 exStateB).1.betweenness 0 = 15 ∧
    (betweenness_backward exParB 2 exStateB).1.delta 1 = exStateB.delta 1 ∧
    (betweenness_backward exParB 2 exStateB).1.betweenness 1 = exStateB.betweenness 1 := by
  have h := claim_C1_backward_kernel exParB 2 exStateB (by decide)
  have h0 := (h 0 (by decide)).1 (by decide)
  have h1 := (h 1 (by decide)).2 (by decide)
  have he : edge_ids exParB 0 = [0, 1] := rfl
  refine ⟨?_, ?_, h1.1, h1.2⟩
  · rw [h0.1, he]
    norm_num [exParB, exStateB, delta_of]
  · rw [h0.2, h0.1, he]
    norm_num [exParB, exStateB, delta_of]

/-- betweenness_gather_backward (with betweenness_gather_cpu inlined; the GPU
kernel runs the identical per-slot body): for every remote partition with a
non-empty boundary, stage delta[vid] into the inbox pull slot of every
boundary vertex vid whose distance is level + 1. -/
def betweenness_gather_backward (cfg : engine_t) (par : partition_t)
    (s : betweenness_state_t) : betweenness_state_t :=
  if par.vertex_count = 0 then s else
  (List.range cfg.pcount).foldl (fun t rmt =>
    if rmt = par.id ∨ cfg.obCnt rmt par.id = 0 then t else
    (List.range (cfg.obCnt rmt par.id)).foldl (fun t j =>
      if t.dist par.id (cfg.obNbrs rmt par.id j) = t.level + 1 then
        { t with inPullS := upd2 t.inPullS rmt j (t.delta (cfg.obNbrs rmt par.id j)) }
      else t) t) s

/-- Modelled from the spec: the engine's PULL-direction exchange at a superstep
boundary, for the score view: every partition's outbox pull buffer towards q
receives what q staged in its inbox pull buffer for this partition. -/
def pull_exchangeS (cfg : engine_t) (gs : ℕ → betweenness_state_t) :
    ℕ → betweenness_state_t :=
  fun p => if p < cfg.pcount then
    { gs p with outPullS := fun q j =>
        if q < cfg.pcount ∧ q ≠ p ∧ j < cfg.obCnt p q then (gs q).inPullS p j
        else (gs p).outPullS q j }
  else gs p

/-- Modelled from the spec: one engine superstep of the backward (pull) round:
the kernel hook runs on every partition (collecting whether any partition
reported not finished), then the gather hook, then the pull exchange. -/
def backward_superstep (cfg : engine_t) (ss : ℕ) (gs : ℕ → betweenness_state_t) :
    (ℕ → betweenness_state_t) × Bool :=
  let rep := (List.range cfg.pcount).any
    (fun p => (betweenness_backward (cfg.parts p) ss (gs p)).2)
  let gs1 := fun p => if p < cfg.pcount then (betweenness_backward (cfg.parts p) ss (gs p)).1 else gs p
  let gs2 := fun p => if p < cfg.pcount then betweenness_gather_backward cfg (cfg.parts p) (gs1 p) else gs1 p
  (pull_exchangeS cfg gs2, rep)

/-- Modelled from the spec: the engine runs backward supersteps (1-based) while
some partition reported not finished; the result counts the supersteps used.
fuel bounds the recursion and is irrelevant once it is at least the entry
level. -/
def backward_round_aux (cfg : engine_t) :
    ℕ → ℕ → (ℕ → betweenness_state_t) → (ℕ → betweenness_state_t) × ℕ
  | 0, _, gs => (gs, 0)
  | fuel+1, ss, gs =>
    let r := backward_superstep cfg ss gs
    if r.2 then
      let rr := backward_round_aux cfg fuel (ss + 1) r.1
      (rr.1, rr.2 + 1)
    else (r.1, 1)

theorem foldl_level_inv {β : Type} (body : betweenness_state_t → β → betweenness_state_t)
    (h : ∀ t b, (body t b).level = t.level) :
    ∀ (l : List β) (s : betweenness_state_t), (l.foldl body s).level = s.level := by
  intro l
  induction l with
  | nil => intro s; rfl
  | cons b l ih => intro s; rw [List.foldl_cons, ih, h]

theorem gather_backward_level (cfg : engine_t) (par : partition_t)
    (s : betweenness_state_t) :
    (betweenness_gather_backward cfg par s).level = s.level := by
  unfold betweenness_gather_backward
  split_ifs with h
  · rfl
  · refine foldl_level_inv _ ?_ _ s
    intro t rmt
    split_ifs with h2
    · rfl
    · refine foldl_level_inv _ ?_ _ t
      intro t2 j
      split_ifs <;> rfl

theorem backward_cpu_level (par : partition_t) (s : betweenness_state_t) :
    (betweenness_backward_cpu par s).level = s.level := by
  obtain ⟨_, _, hl, _⟩ :=
    bwd_fold_char par (List.range par.vertex_count) s (List.nodup_range par.vertex_count)
  exact hl

theorem backward_hook_level (par : partition_t) (ss : ℕ) (s : betweenness_state_t)
    (hne : par.vertex_count ≠ 0) :
    (betweenness_backward par ss s).1.level = s.level - 1 := by
  simp only [betweenness_backward, if_neg hne]
  split_ifs with h
  · show (betweenness_backward_cpu par s).level - 1 = s.level - 1
    rw [backward_cpu_level]
  · rfl

theorem backward_hook_rep (par : partition_t) (ss : ℕ) (s : betweenness_state_t)
    (hne : par.vertex_count ≠ 0) :
    (betweenness_backward par ss s).2 = decide (0 < s.level - 1) := by
  simp only [betweenness_backward, if_neg hne]
  split_ifs with h
  · show decide (0 < (betweenness_backward_cpu par s).level - 1) = _
    rw [backward_cpu_level]
  · rfl

theorem backward_superstep_level (cfg : engine_t) (ss : ℕ)
    (gs : ℕ → betweenness_state_t) (p : ℕ) (hp : p < cfg.pcount)
    (hne : (cfg.parts p).vertex_count ≠ 0) :
    ((backward_superstep cfg ss gs).1 p).level = (gs p).level - 1 := by
  simp only [backward_superstep, pull_exchangeS]
  rw [if_pos hp]
  show (if p < cfg.pcount then betweenness_gather_backward cfg (cfg.parts p)
      (if p < cfg.pcount then (betweenness_backward (cfg.parts p) ss (gs p)).1 else gs p)
    else if p < cfg.pcount then (betweenness_backward (cfg.parts p) ss (gs p)).1 else gs p).level =
    (gs p).level - 1
  rw [if_pos hp, if_pos hp, gather_backward_level,
    backward_hook_level (cfg.parts p) ss (gs p) hne]

/-- C6: on every superstep of the backward round, the kernel hook of each
non-empty partition decrements the level exactly once, performs no kernel
work on superstep 1 (the engine_superstep() > 1 guard), and reports not
finished iff the level is positive after the decrement; and since every
partition's level strictly decreases each superstep, a round entered with all
non-empty partitions at the same level L ≥ 1 terminates after exactly L
supersteps (any fuel of at least L gives the same count). -/
theorem claim_C6_backward_round (cfg : engine_t) :
    (∀ (par : partition_t) (ss : ℕ) (s : betweenness_state_t),
      par.vertex_count ≠ 0 →
      ((betweenness_backward par ss s).1.level = s.level - 1 ∧
       (ss = 1 → (betweenness_backward par ss s).1 = { s with level := s.level - 1 }) ∧
       ((betweenness_backward par ss s).2 = true ↔ 0 < s.level - 1))) ∧
    (∀ L fuel ss (gs : ℕ → betweenness_state_t), 1 ≤ L → L ≤ fuel →
      (∀ p, p < cfg.pcount → (cfg.parts p).vertex_count ≠ 0 → (gs p).level = L) →
      (∃ p, p < cfg.pcount ∧ (cfg.parts p).vertex_count ≠ 0) →
      (backward_round_aux cfg fuel ss gs).2 = L) := by
  constructor
  · intro par ss s hne
    refine ⟨backward_hook_level par ss s hne, ?_, ?_⟩
    · intro hss1
      subst hss1
      simp [betweenness_backward, hne]
    · rw [backward_hook_rep par ss s hne]
      simp
  · intro L
    induction L with
    | zero =>
      intro fuel ss gs hL
      omega
    | succ l ih =>
      intro fuel ss gs hL hfuel hlock hex
      match fuel, hfuel with
      | f + 1, _ =>
        by_cases hl0 : l = 0
        · subst hl0
          have hfalse : (backward_superstep cfg ss gs).2 = false := by
            show (List.range cfg.pcount).any
              (fun p => (betweenness_backward (cfg.parts p) ss (gs p)).2) = false
            rw [List.any_eq_false]
            intro p hpmem
            have hp := List.mem_range.mp hpmem
            by_cases hne : (cfg.parts p).vertex_count = 0
            · simp [betweenness_backward, hne]
            · rw [backward_hook_rep (cfg.parts p) ss (gs p) hne, hlock p hp hne]
              simp
          simp only [backward_round_aux, hfalse]
          rfl
        · have htrue : (backward_superstep cfg ss gs).2 = true := by
            obtain ⟨p, hp, hne⟩ := hex
            show (List.range cfg.pcount).any
              (fun p => (betweenness_backward (cfg.parts p) ss (gs p)).2) = true
            rw [List.any_eq_true]
            refine ⟨p, List.mem_range.mpr hp, ?_⟩
            rw [backward_hook_rep (cfg.parts p) ss (gs p) hne, hlock p hp hne]
            simp
            omega
          have hlock2 : ∀ p, p < cfg.pcount → (cfg.parts p).vertex_count ≠ 0 →
              (((backward_superstep cfg ss gs).1) p).level = l := by
            intro p hp hne
            rw [backward_superstep_level cfg ss gs p hp hne, hlock p hp hne]
            omega
          have hrec := ih f (ss + 1) (backward_superstep cfg ss gs).1
            (by omega) (by omega) hlock2 hex
          simp only [backward_round_aux, htrue]
          simp only [if_true]
          rw [hrec]

/-- Witness for C6: the hook decrements the level of the concrete backward
state, and a round over the two-partition configuration entered at level 3
takes exactly 3 supersteps. -/
theorem claim_C6_backward_round_witness :
    (betweenness_backward exParB 2 exStateB).1.level = exStateB.level - 1 ∧
    (backward_round_aux exCfg 5 1 (fun _ => { exJunk with level := 3 })).2 = 3 := by
  have h := claim_C6_backward_round exCfg
  refine ⟨(h.1 exParB 2 exStateB (by decide)).1, ?_⟩
  exact h.2 3 5 1 (fun _ => { exJunk with level := 3 })
    (by decide) (by decide) (by decide) ⟨0, by decide, by decide⟩

/-- The halving reduction at the end of backward_process_neighbors: with warp
width 2^(k+1) the first pass adds, for every lane below 2^k, the slot 2^k
positions above, and the remaining passes reduce the first 2^k slots. -/
def vwarp_reduce (f : ℕ → ℚ) : ℕ → ℕ → ℚ
  | 0 => f
  | k+1 => vwarp_reduce (fun i => if i < 2 ^ k then f i + f (i + 2 ^ k) else f i) k

theorem vwarp_reduce_sum : ∀ (k : ℕ) (f : ℕ → ℚ),
    vwarp_reduce f k 0 = ∑ i in Finset.range (2 ^ k), f i := by
  intro k
  induction k with
  | zero =>
    intro f
    simp [vwarp_reduce]
  | succ k ih =>
    intro f
    show vwarp_reduce (fun i => if i < 2 ^ k then f i + f (i + 2 ^ k) else f i) k 0 = _
    rw [ih]
    have h1 : ∑ i in Finset.range (2 ^ k),
        (if i < 2 ^ k then f i + f (i + 2 ^ k) else f i) =
        ∑ i in Finset.range (2 ^ k), (f i + f (i + 2 ^ k)) := by
      refine Finset.sum_congr rfl ?_
      intro i hi
      rw [if_pos (Finset.mem_range.mp hi)]
    rw [h1, Finset.sum_add_distrib]
    have h2 : ∑ i in Finset.range (2 ^ k), f (i + 2 ^ k) =
        ∑ i in Finset.Ico (2 ^ k) (2 ^ (k + 1)), f i := by
      rw [Finset.sum_Ico_eq_sum_range f (2 ^ k) (2 ^ (k + 1))]
      have hlen : 2 ^ (k + 1) - 2 ^ k = 2 ^ k := by
        rw [pow_succ]
        omega
      rw [hlen]
      refine Finset.sum_congr rfl ?_
      intro i _
      rw [add_comm]
    rw [h2, Finset.range_eq_Ico]
    refine Finset.sum_Ico_consecutive f (Nat.zero_le _) ?_
    exact Nat.pow_le_pow_right (by norm_num) (Nat.le_succ k)

theorem lane_fiber_sum (n W : ℕ) (hW : 0 < W) (g : ℕ → ℚ) :
    ∑ j in Finset.range W, ∑ i in (Finset.range n).filter (fun i => i % W = j), g i =
    ∑ i in Finset.range n, g i :=
  Finset.sum_fiberwise_of_maps_to (fun i _ => Finset.mem_range.mpr (Nat.mod_lt i hW)) g

theorem range'_map_sum (f : ℕ → ℚ) : ∀ (n a : ℕ),
    ((List.range' a n).map f).sum = ∑ i in Finset.range n, f (a + i) := by
  intro n
  induction n with
  | zero => intro a; simp
  | succ n ih =>
    intro a
    rw [List.range'_succ]
    simp only [List.map_cons, List.sum_cons]
    rw [ih (a + 1), Finset.sum_range_succ' (fun i => f (a + i)) n]
    have hc : ∑ i in Finset.range n, f (a + 1 + i) =
        ∑ i in Finset.range n, f (a + (i + 1)) :=
      Finset.sum_congr rfl (fun i _ => by rw [show a + 1 + i = a + (i + 1) by omega])
    rw [hc, add_comm]
    simp

/-- backward_process_neighbors (GPU), for one frontier vertex v with warp
width 2^k: lane j accumulates into its shared-memory slot the guarded
contributions of the edge indices i < nbr_count with i % W = j (thread j
visits j, j + W, j + 2W, ...), the halving reduction folds the W slots into
slot 0, and lane 0 stores the result into delta[v] and adds it into
betweenness[v] only when the result is non-zero. -/
def backward_process_neighbors (par : partition_t) (k : ℕ)
    (s : betweenness_state_t) (v : ℕ) : betweenness_state_t :=
  let nbr_count := par.vertices (v + 1) - par.vertices v
  let lane : ℕ → ℚ := fun j =>
    ∑ i in (Finset.range nbr_count).filter (fun i => i % 2 ^ k = j),
      bwd_term par s (s.numSPs par.id v) (par.edges (par.vertices v + i))
  let r := vwarp_reduce lane k 0
  if r ≠ 0 then
    { s with
      delta := upd1 s.delta v r
      betweenness := upd1 s.betweenness v (s.betweenness v + r) }
  else s

/-- betweenness_backward_gpu: build the frontier (the local vertices at the
current level) and run the warp kernel over it. -/
def betweenness_backward_gpu (par : partition_t) (k : ℕ)
    (s : betweenness_state_t) : betweenness_state_t :=
  ((List.range par.vertex_count).filter
    (fun v => decide (s.dist par.id v = s.level))).foldl
    (fun t v => backward_process_neighbors par k t v) s

theorem gpu_reduced_eq_edge_sum (par : partition_t) (k : ℕ)
    (s : betweenness_state_t) (v : ℕ) :
    vwarp_reduce (fun j =>
      ∑ i in (Finset.range (par.vertices (v + 1) - par.vertices v)).filter
          (fun i => i % 2 ^ k = j),
        bwd_term par s (s.numSPs par.id v) (par.edges (par.vertices v + i))) k 0 =
    edge_sum par s v := by
  rw [vwarp_reduce_sum]
  rw [lane_fiber_sum (par.vertices (v + 1) - par.vertices v) (2 ^ k)
    (pow_pos (by norm_num) k)
    (fun i => bwd_term par s (s.numSPs par.id v) (par.edges (par.vertices v + i)))]
  unfold edge_sum edge_ids
  rw [range'_map_sum (fun e => bwd_term par s (s.numSPs par.id v) (par.edges e))
    (par.vertices (v + 1) - par.vertices v) (par.vertices v)]

/-- Normal form of the GPU per-vertex kernel body: it computes the same edge
sum as the CPU path and performs the guarded store. -/
theorem backward_process_neighbors_eq (par : partition_t) (k : ℕ)
    (s : betweenness_state_t) (v : ℕ) :
    backward_process_neighbors par k s v =
      if edge_sum par s v ≠ 0 then
        { s with
          delta := upd1 s.delta v (edge_sum par s v)
          betweenness := upd1 s.betweenness v (s.betweenness v + edge_sum par s v) }
      else s := by
  simp only [backward_process_neighbors]
  rw [gpu_reduced_eq_edge_sum]

theorem gpu_vertex_fields (par : partition_t) (k : ℕ) (s : betweenness_state_t) (v : ℕ) :
    (backward_process_neighbors par k s v).dist = s.dist ∧
    (backward_process_neighbors par k s v).numSPs = s.numSPs ∧
    (backward_process_neighbors par k s v).level = s.level ∧
    (backward_process_neighbors par k s v).outPullS = s.outPullS ∧
    (backward_process_neighbors par k s v).done = s.done ∧
    (backward_process_neighbors par k s v).outPush = s.outPush ∧
    (backward_process_neighbors par k s v).inPush = s.inPush ∧
    (backward_process_neighbors par k s v).outPullN = s.outPullN ∧
    (backward_process_neighbors par k s v).inPullN = s.inPullN ∧
    (backward_process_neighbors par k s v).inPullS = s.inPullS := by
  rw [backward_process_neighbors_eq]
  split_ifs <;> exact ⟨rfl, rfl, rfl, rfl, rfl, rfl, rfl, rfl, rfl, rfl⟩

theorem gpu_vertex_delta (par : partition_t) (k : ℕ) (s : betweenness_state_t) (v u : ℕ) :
    (backward_process_neighbors par k s v).delta u =
      if u = v ∧ edge_sum par s v ≠ 0 then edge_sum par s v else s.delta u := by
  rw [backward_process_neighbors_eq]
  by_cases hv : edge_sum par s v ≠ 0
  · rw [if_pos hv]
    by_cases huv : u = v
    · subst huv
      rw [if_pos ⟨rfl, hv⟩]
      exact upd1_self _ _ _
    · rw [if_neg (fun hc => huv hc.1)]
      exact upd1_ne _ _ _ huv
  · rw [if_neg hv, if_neg (fun hc => hv hc.2)]

theorem gpu_vertex_bet (par : partition_t) (k : ℕ) (s : betweenness_state_t) (v u : ℕ) :
    (backward_process_neighbors par k s v).betweenness u =
      if u = v ∧ edge_sum par s v ≠ 0 then s.betweenness v + edge_sum par s v
      else s.betweenness u := by
  rw [backward_process_neighbors_eq]
  by_cases hv : edge_sum par s v ≠ 0
  · rw [if_pos hv]
    by_cases huv : u = v
    · subst huv
      rw [if_pos ⟨rfl, hv⟩]
      exact upd1_self _ _ _
    · rw [if_neg (fun hc => huv hc.1)]
      exact upd1_ne _ _ _ huv
  · rw [if_neg hv, if_neg (fun hc => hv hc.2)]

/-- What the GPU kernel's fold does over a duplicate-free frontier of vertices
at the current level: only delta and betweenness change, exactly at the
frontier vertices with a non-zero edge sum. -/
def gpu_char (par : partition_t) (l : List ℕ) (s t : betweenness_state_t) : Prop :=
  t.dist = s.dist ∧ t.numSPs = s.numSPs ∧ t.level = s.level ∧
  t.outPullS = s.outPullS ∧ t.done = s.done ∧ t.outPush = s.outPush ∧
  t.inPush = s.inPush ∧ t.outPullN = s.outPullN ∧ t.inPullN = s.inPullN ∧
  t.inPullS = s.inPullS ∧
  (∀ u, t.delta u =
    if u ∈ l ∧ edge_sum par s u ≠ 0 then edge_sum par s u else s.delta u) ∧
  (∀ u, t.betweenness u =
    if u ∈ l ∧ edge_sum par s u ≠ 0 then s.betweenness u + edge_sum par s u
    else s.betweenness u)

theorem gpu_fold_char (par : partition_t) (k : ℕ) :
    ∀ (l : List ℕ), ∀ s : betweenness_state_t, l.Nodup →
      (∀ v ∈ l, s.dist par.id v = s.level) →
      gpu_char par l s
        (l.foldl (fun t v => backward_process_neighbors par k t v) s) := by
  intro l
  induction l with
  | nil =>
    intro s _ _
    unfold gpu_char
    refine ⟨rfl, rfl, rfl, rfl, rfl, rfl, rfl, rfl, rfl, rfl, ?_, ?_⟩ <;>
      intro u <;> simp [List.foldl_nil]
  | cons v l2 ih =>
    intro s hnd hlev
    obtain ⟨hvl, hnd2⟩ := List.nodup_cons.mp hnd
    have hlv : s.dist par.id v = s.level := hlev v (List.mem_cons_self v l2)
    unfold gpu_char
    simp only [List.foldl_cons]
    obtain ⟨xd, xn, xl, xp, xdo, xop, xip, xon, xin, xis⟩ :=
      gpu_vertex_fields par k s v
    have hδ : ∀ w, s.dist par.id w = s.level + 1 →
        (backward_process_neighbors par k s v).delta w = s.delta w := by
      intro w hw
      rw [gpu_vertex_delta par k s v w]
      have hwv : ¬(w = v ∧ edge_sum par s v ≠ 0) := by
        intro hc
        rw [hc.1, hlv] at hw
        omega
      rw [if_neg hwv]
    have hes : ∀ u, edge_sum par (backward_process_neighbors par k s v) u =
        edge_sum par s u := by
      intro u
      exact @edge_sum_congr par s (backward_process_neighbors par k s v) xd xn xl xp hδ u
    have hlev2 : ∀ w ∈ l2, (backward_process_neighbors par k s v).dist par.id w =
        (backward_process_neighbors par k s v).level := by
      intro w hw
      rw [xd, xl]
      exact hlev w (List.mem_cons_of_mem v hw)
    obtain ⟨hd, hn, hl, hp, hdo, hop, hip, hon, hin, his, hdel, hbet⟩ :=
      ih (backward_process_neighbors par k s v) hnd2 hlev2
    refine ⟨hd.trans xd, hn.trans xn, hl.trans xl, hp.trans xp, hdo.trans xdo,
      hop.trans xop, hip.trans xip, hon.trans xon, hin.trans xin, his.trans xis,
      ?_, ?_⟩
    · intro u
      rw [hdel u, hes u, gpu_vertex_delta par k s v u]
      by_cases huv : u = v
      · subst huv
        rw [if_neg (fun hc => hvl hc.1)]
        by_cases hesu : edge_sum par s u ≠ 0
        · rw [if_pos ⟨rfl, hesu⟩, if_pos ⟨List.mem_cons_self u l2, hesu⟩]
        · rw [if_neg (fun hc => hesu hc.2), if_neg (fun hc => hesu hc.2)]
      · rw [if_neg (show ¬(u = v ∧ edge_sum par s v ≠ 0) from fun hc => huv hc.1)]
        simp only [List.mem_cons, huv, false_or]
    · intro u
      rw [hbet u, hes u, gpu_vertex_bet par k s v u]
      by_cases huv : u = v
      · subst huv
        rw [if_neg (fun hc => hvl hc.1)]
        by_cases hesu : edge_sum par s u ≠ 0
        · rw [if_pos ⟨rfl, hesu⟩, if_pos ⟨List.mem_cons_self u l2, hesu⟩]
        · rw [if_neg (fun hc => hesu hc.2), if_neg (fun hc => hesu hc.2)]
      · rw [if_neg (show ¬(u = v ∧ edge_sum par s v ≠ 0) from fun hc => huv hc.1)]
        simp only [List.mem_cons, huv, false_or]

/-- C10: when every local vertex at the current level has delta 0 (the state
the backward initialization establishes for the first time a level is
processed), the GPU backward path — per-lane stride sums, halving reduction,
and a store by lane 0 suppressed when the reduced sum is zero — produces
exactly the same state as the CPU backward path, which unconditionally
accumulates the (possibly zero) sum into delta[v] and betweenness[v]. -/
theorem claim_C10_gpu_cpu_equiv (par : partition_t) (k : ℕ)
    (s : betweenness_state_t)
    (h0 : ∀ v, v < par.vertex_count → s.dist par.id v = s.level → s.delta v = 0) :
    betweenness_backward_gpu par k s = betweenness_backward_cpu par s := by
  have hnodup : ((List.range par.vertex_count).filter
      (fun v => decide (s.dist par.id v = s.level))).Nodup :=
    (List.nodup_range par.vertex_count).filter _
  have hlev : ∀ v ∈ (List.range par.vertex_count).filter
      (fun v => decide (s.dist par.id v = s.level)), s.dist par.id v = s.level := by
    intro v hvmem
    exact of_decide_eq_true (List.mem_filter.mp hvmem).2
  obtain ⟨gd, gn, gl, gp, gdo, gop, gip, gon, gin, gis, gdel, gbet⟩ :=
    gpu_fold_char par k ((List.range par.vertex_count).filter
      (fun v => decide (s.dist par.id v = s.level))) s hnodup hlev
  obtain ⟨cd, cn, cl, cp, cdo, cop, cip, con, cin, cis, cdel, cbet⟩ :=
    bwd_fold_char par (List.range par.vertex_count) s
      (List.nodup_range par.vertex_count)
  have hmemiff : ∀ u, (u ∈ (List.range par.vertex_count).filter
      (fun v => decide (s.dist par.id v = s.level))) ↔
      (u < par.vertex_count ∧ s.dist par.id u = s.level) := by
    intro u
    rw [List.mem_filter, List.mem_range]
    simp only [decide_eq_true_eq]
  unfold betweenness_backward_gpu betweenness_backward_cpu
  apply betweenness_state_t.ext
  · exact gd.trans cd.symm
  · exact gn.trans cn.symm
  · funext u
    rw [gdel u, cdel u]
    by_cases hc : u < par.vertex_count ∧ s.dist par.id u = s.level
    · have hmemf := (hmemiff u).mpr hc
      have hmemr := List.mem_range.mpr hc.1
      have h0u := h0 u hc.1 hc.2
      by_cases hes : edge_sum par s u = 0
      · rw [if_neg (show ¬(u ∈ (List.range par.vertex_count).filter
            (fun v => decide (s.dist par.id v = s.level)) ∧ edge_sum par s u ≠ 0)
            from fun hcc => hcc.2 hes),
          if_pos (show u ∈ List.range par.vertex_count ∧ s.dist par.id u = s.level
            from ⟨hmemr, hc.2⟩), h0u, hes]
        simp
      · rw [if_pos (show u ∈ (List.range par.vertex_count).filter
            (fun v => decide (s.dist par.id v = s.level)) ∧ edge_sum par s u ≠ 0
            from ⟨hmemf, hes⟩),
          if_pos (show u ∈ List.range par.vertex_count ∧ s.dist par.id u = s.level
            from ⟨hmemr, hc.2⟩), h0u, zero_add]
    · rw [if_neg (show ¬(u ∈ (List.range par.vertex_count).filter
          (fun v => decide (s.dist par.id v = s.level)) ∧ edge_sum par s u ≠ 0)
          from fun hcc => hc ((hmemiff u).mp hcc.1)),
        if_neg (show ¬(u ∈ List.range par.vertex_count ∧ s.dist par.id u = s.level)
          from fun hcc => hc ⟨List.mem_range.mp hcc.1, hcc.2⟩)]
  · funext u
    rw [gbet u, cbet u]
    by_cases hc : u < par.vertex_count ∧ s.dist par.id u = s.level
    · have hmemf := (hmemiff u).mpr hc
      have hmemr := List.mem_range.mpr hc.1
      have h0u := h0 u hc.1 hc.2
      by_cases hes : edge_sum par s u = 0
      · rw [if_neg (show ¬(u ∈ (List.range par.vertex_count).filter
            (fun v => decide (s.dist par.id v = s.level)) ∧ edge_sum par s u ≠ 0)
            from fun hcc => hcc.2 hes),
          if_pos (show u ∈ List.range par.vertex_count ∧ s.dist par.id u = s.level
            from ⟨hmemr, hc.2⟩), h0u, hes]
        simp
      · rw [if_pos (show u ∈ (List.range par.vertex_count).filter
            (fun v => decide (s.dist par.id v = s.level)) ∧ edge_sum par s u ≠ 0
            from ⟨hmemf, hes⟩),
          if_pos (show u ∈ List.range par.vertex_count ∧ s.dist par.id u = s.level
            from ⟨hmemr, hc.2⟩), h0u, zero_add]
    · rw [if_neg (show ¬(u ∈ (List.range par.vertex_count).filter
          (fun v => decide (s.dist par.id v = s.level)) ∧ edge_sum par s u ≠ 0)
          from fun hcc => hc ((hmemiff u).mp hcc.1)),
        if_neg (show ¬(u ∈ List.range par.vertex_count ∧ s.dist par.id u = s.level)
          from fun hcc => hc ⟨List.mem_range.mp hcc.1, hcc.2⟩)]
  · exact gl.trans cl.symm
  · exact gdo.trans cdo.symm
  · exact gop.trans cop.symm
  · exact gip.trans cip.symm
  · exact gon.trans con.symm
  · exact gin.trans cin.symm
  · exact gp.trans cp.symm
  · exact gis.trans cis.symm

/-- Witness for C10 on the concrete backward scenario (delta of the level-1
vertex is 0): warp width 2 gives the same state as the CPU path. -/
theorem claim_C10_gpu_cpu_equiv_witness :
    (∀ v, v < exParB.vertex_count →
      exStateB.dist exParB.id v = exStateB.level → exStateB.delta v = 0) ∧
    betweenness_backward_gpu exParB 1 exStateB =
      betweenness_backward_cpu exParB exStateB := by
  have h0 : ∀ v, v < exParB.vertex_count →
      exStateB.dist exParB.id v = exStateB.level → exStateB.delta v = 0 := by
    decide
  exact ⟨h0, claim_C10_gpu_cpu_equiv exParB 1 exStateB h0⟩

/-- betweenness_aggr: the aggregation hook.  For a GPU partition the code
first copies the betweenness array to a host staging buffer, which is
value-preserving, so both processor kinds are embedded identically.  Vtotal
is engine_vertex_count() and num_samples is bc_g.num_samples. -/
def betweenness_aggr (eps : ℚ) (num_samples Vtotal : ℕ) (par : partition_t)
    (s : betweenness_state_t) (betweenness_score : ℕ → ℚ) : ℕ → ℚ :=
  if par.vertex_count = 0 then betweenness_score else
  (List.range par.vertex_count).foldl (fun sc v =>
    if eps = CENTRALITY_EXACT then upd1 sc (par.map v) (s.betweenness v)
    else upd1 sc (par.map v)
      (s.betweenness v * ((Vtotal : ℚ) / (num_samples : ℚ)))) betweenness_score

theorem aggr_fold_char (m : ℕ → ℕ) (val : ℕ → ℚ) :
    ∀ (n : ℕ) (sc : ℕ → ℚ),
      (∀ u1, u1 < n → ∀ u2, u2 < n → m u1 = m u2 → u1 = u2) →
      ∀ v, v < n →
        ((List.range n).foldl (fun sc v => upd1 sc (m v) (val v)) sc) (m v) = val v := by
  intro n
  induction n with
  | zero =>
    intro sc _ v hv
    omega
  | succ n ih =>
    intro sc hinj v hv
    rw [List.range_succ, List.foldl_append]
    simp only [List.foldl_cons, List.foldl_nil]
    by_cases hvn : v = n
    · subst hvn
      exact upd1_self _ _ _
    · have hvn2 : v < n := by omega
      have hmne : m v ≠ m n := by
        intro he
        exact hvn (hinj v (by omega) n (by omega) he)
      rw [upd1_ne _ _ _ hmne]
      exact ih sc (fun u1 h1 u2 h2 => hinj u1 (by omega) u2 (by omega)) v hvn2

/-- C7: during aggregation, for a non-empty partition whose id map is
injective on its local vertices, betweenness_score[map[v]] is set to
betweenness[v] in exact mode and to betweenness[v] * (V_total / num_samples)
in approximate mode. -/
theorem claim_C7_aggr (eps : ℚ) (num_samples Vtotal : ℕ) (par : partition_t)
    (s : betweenness_state_t) (score : ℕ → ℚ)
    (hne : par.vertex_count ≠ 0)
    (hinj : ∀ u1, u1 < par.vertex_count → ∀ u2, u2 < par.vertex_count →
      par.map u1 = par.map u2 → u1 = u2) :
    ∀ v, v < par.vertex_count →
      (eps = CENTRALITY_EXACT →
        betweenness_aggr eps num_samples Vtotal par s score (par.map v) =
          s.betweenness v) ∧
      (eps ≠ CENTRALITY_EXACT →
        betweenness_aggr eps num_samples Vtotal par s score (par.map v) =
          s.betweenness v * ((Vtotal : ℚ) / (num_samples : ℚ))) := by
  intro v hv
  unfold betweenness_aggr
  rw [if_neg hne]
  constructor
  · intro he
    have hbody : (fun (sc : ℕ → ℚ) v =>
        if eps = CENTRALITY_EXACT then upd1 sc (par.map v) (s.betweenness v)
        else upd1 sc (par.map v)
          (s.betweenness v * ((Vtotal : ℚ) / (num_samples : ℚ)))) =
        fun sc v => upd1 sc (par.map v) (s.betweenness v) := by
      funext sc v
      rw [if_pos he]
    rw [hbody]
    exact aggr_fold_char par.map (fun v => s.betweenness v)
      par.vertex_count score hinj v hv
  · intro he
    have hbody : (fun (sc : ℕ → ℚ) v =>
        if eps = CENTRALITY_EXACT then upd1 sc (par.map v) (s.betweenness v)
        else upd1 sc (par.map v)
          (s.betweenness v * ((Vtotal : ℚ) / (num_samples : ℚ)))) =
        fun sc v => upd1 sc (par.map v)
          (s.betweenness v * ((Vtotal : ℚ) / (num_samples : ℚ))) := by
      funext sc v
      rw [if_neg he]
    rw [hbody]
    exact aggr_fold_char par.map
      (fun v => s.betweenness v * ((Vtotal : ℚ) / (num_samples : ℚ)))
      par.vertex_count score hinj v hv

/-- Witness for C7: exact mode copies betweenness[0] = 10 to its engine-wide
slot; approximate mode with epsilon 1/2 scales betweenness[1] = 10 by
V_total / num_samples = 10 / 2. -/
theorem claim_C7_aggr_witness :
    betweenness_aggr CENTRALITY_EXACT 2 10 exParB exStateB (fun _ => 7)
      (exParB.map 0) = exStateB.betweenness 0 ∧
    betweenness_aggr (1 / 2) 2 10 exParB exStateB (fun _ => 7)
      (exParB.map 1) = exStateB.betweenness 1 * ((10 : ℚ) / (2 : ℚ)) := by
  have hinj : ∀ u1, u1 < exParB.vertex_count → ∀ u2, u2 < exParB.vertex_count →
      exParB.map u1 = exParB.map u2 → u1 = u2 := by decide
  have h1 := claim_C7_aggr CENTRALITY_EXACT 2 10 exParB exStateB (fun _ => 7)
    (by decide) hinj 0 (by decide)
  have h2 := claim_C7_aggr (1 / 2) 2 10 exParB exStateB (fun _ => 7)
    (by decide) hinj 1 (by decide)
  exact ⟨h1.1 rfl, h2.2 (by norm_num [CENTRALITY_EXACT])⟩

/-- betweenness_gather_distance: the kernelless gather of the distance sync
round.  Modelled from the spec: engine_gather_inbox(par->id, distance[par->id])
stages the authoritative local distance array into the partition's own inbox
pull buffers, one slot per boundary vertex each remote partition shares. -/
def betweenness_gather_distance (cfg : engine_t) (par : partition_t)
    (s : betweenness_state_t) : betweenness_state_t :=
  { s with inPullN := fun q j =>
      if q < cfg.pcount ∧ q ≠ par.id ∧ j < cfg.obCnt q par.id then
        s.dist par.id (cfg.obNbrs q par.id j)
      else s.inPullN q j }

/-- Body of the remote-partition loop of betweenness_synch_distance: copy
outbox[rmt].pull_values into the distance mirror for rmt (count entries). -/
def synch_distance_body (cfg : engine_t) (par : partition_t)
    (t : betweenness_state_t) (rmt : ℕ) : betweenness_state_t :=
  if rmt = par.id then t else
  { t with dist := fun q j =>
      if q = rmt ∧ j < cfg.obCnt par.id rmt then t.outPullN rmt j else t.dist q j }

/-- betweenness_synch_distance: on superstep 1 the hook only reports not
finished (forcing the second superstep; the two-superstep shape is built into
sync_distance_round); afterwards it copies every remote pull buffer into the
corresponding distance mirror. -/
def betweenness_synch_distance (cfg : engine_t) (par : partition_t) (ss : ℕ)
    (s : betweenness_state_t) : betweenness_state_t :=
  if ss = 1 then s else
  (List.range cfg.pcount).foldl (synch_distance_body cfg par) s

/-- Modelled from the spec: the engine's PULL-direction exchange for the
ℕ-typed view of the pull buffers. -/
def pull_exchangeN (cfg : engine_t) (gs : ℕ → betweenness_state_t) :
    ℕ → betweenness_state_t :=
  fun p => if p < cfg.pcount then
    { gs p with outPullN := fun q j =>
        if q < cfg.pcount ∧ q ≠ p ∧ j < cfg.obCnt p q then (gs q).inPullN p j
        else (gs p).outPullN q j }
  else gs p

/-- Modelled from the spec: one superstep of the distance synchronization
round: kernel (synch), then gather, then the pull exchange. -/
def sync_distance_superstep (cfg : engine_t) (ss : ℕ)
    (gs : ℕ → betweenness_state_t) : ℕ → betweenness_state_t :=
  pull_exchangeN cfg (fun p => if p < cfg.pcount then
    betweenness_gather_distance cfg (cfg.parts p)
      (betweenness_synch_distance cfg (cfg.parts p) ss (gs p))
  else gs p)

/-- The distance synchronization round: superstep 1 (gather staged,
transferred), superstep 2 (mirrors written, gather restaged, transferred). -/
def sync_distance_round (cfg : engine_t) (gs : ℕ → betweenness_state_t) :
    ℕ → betweenness_state_t :=
  sync_distance_superstep cfg 2 (sync_distance_superstep cfg 1 gs)

/-- betweenness_gather_numSPs: identical shape to the distance gather, staging
the authoritative numSPs array. -/
def betweenness_gather_numSPs (cfg : engine_t) (par : partition_t)
    (s : betweenness_state_t) : betweenness_state_t :=
  { s with inPullN := fun q j =>
      if q < cfg.pcount ∧ q ≠ par.id ∧ j < cfg.obCnt q par.id then
        s.numSPs par.id (cfg.obNbrs q par.id j)
      else s.inPullN q j }

/-- Body of the remote-partition loop of betweenness_synch_numSPs. -/
def synch_numSPs_body (cfg : engine_t) (par : partition_t)
    (t : betweenness_state_t) (rmt : ℕ) : betweenness_state_t :=
  if rmt = par.id then t else
  { t with numSPs := fun q j =>
      if q = rmt ∧ j < cfg.obCnt par.id rmt then t.outPullN rmt j else t.numSPs q j }

/-- betweenness_synch_numSPs: identical shape to the distance synch. -/
def betweenness_synch_numSPs (cfg : engine_t) (par : partition_t) (ss : ℕ)
    (s : betweenness_state_t) : betweenness_state_t :=
  if ss = 1 then s else
  (List.range cfg.pcount).foldl (synch_numSPs_body cfg par) s

/-- Modelled from the spec: one superstep of the numSPs synchronization round. -/
def sync_numSPs_superstep (cfg : engine_t) (ss : ℕ)
    (gs : ℕ → betweenness_state_t) : ℕ → betweenness_state_t :=
  pull_exchangeN cfg (fun p => if p < cfg.pcount then
    betweenness_gather_numSPs cfg (cfg.parts p)
      (betweenness_synch_numSPs cfg (cfg.parts p) ss (gs p))
  else gs p)

/-- The numSPs synchronization round. -/
def sync_numSPs_round (cfg : engine_t) (gs : ℕ → betweenness_state_t) :
    ℕ → betweenness_state_t :=
  sync_numSPs_superstep cfg 2 (sync_numSPs_superstep cfg 1 gs)

theorem synch_distance_fold_char (cfg : engine_t) (par : partition_t) :
    ∀ (l : List ℕ) (s : betweenness_state_t), l.Nodup →
      ((l.foldl (synch_distance_body cfg par) s).dist = fun q j =>
        if q ∈ l ∧ q ≠ par.id ∧ j < cfg.obCnt par.id q then s.outPullN q j
        else s.dist q j) ∧
      ((l.foldl (synch_distance_body cfg par) s).numSPs = s.numSPs ∧
       (l.foldl (synch_distance_body cfg par) s).delta = s.delta ∧
       (l.foldl (synch_distance_body cfg par) s).betweenness = s.betweenness ∧
       (l.foldl (synch_distance_body cfg par) s).level = s.level ∧
       (l.foldl (synch_distance_body cfg par) s).done = s.done ∧
       (l.foldl (synch_distance_body cfg par) s).outPush = s.outPush ∧
       (l.foldl (synch_distance_body cfg par) s).inPush = s.inPush ∧
       (l.foldl (synch_distance_body cfg par) s).outPullN = s.outPullN ∧
       (l.foldl (synch_distance_body cfg par) s).inPullN = s.inPullN ∧
       (l.foldl (synch_distance_body cfg par) s).outPullS = s.outPullS ∧
       (l.foldl (synch_distance_body cfg par) s).inPullS = s.inPullS) := by
  intro l
  induction l with
  | nil =>
    intro s _
    refine ⟨?_, rfl, rfl, rfl, rfl, rfl, rfl, rfl, rfl, rfl, rfl, rfl⟩
    funext q j
    simp
  | cons rmt l2 ih =>
    intro s hnd
    obtain ⟨hrl, hnd2⟩ := List.nodup_cons.mp hnd
    simp only [List.foldl_cons]
    by_cases hrp : rmt = par.id
    · have hb : synch_distance_body cfg par s rmt = s := by
        unfold synch_distance_body
        rw [if_pos hrp]
      rw [hb]
      obtain ⟨hdist, hrest⟩ := ih s hnd2
      refine ⟨?_, hrest⟩
      rw [hdist]
      funext q j
      by_cases hq2 : q ∈ l2 ∧ q ≠ par.id ∧ j < cfg.obCnt par.id q
      · rw [if_pos hq2, if_pos ⟨List.mem_cons_of_mem rmt hq2.1, hq2.2⟩]
      · rw [if_neg hq2]
        have : ¬(q ∈ rmt :: l2 ∧ q ≠ par.id ∧ j < cfg.obCnt par.id q) := by
          intro hc
          rcases List.mem_cons.mp hc.1 with hqr | hql
          · exact hc.2.1 (hqr.trans hrp)
          · exact hq2 ⟨hql, hc.2⟩
        rw [if_neg this]
    · have hb : synch_distance_body cfg par s rmt =
          { s with dist := fun q j =>
              if q = rmt ∧ j < cfg.obCnt par.id rmt then s.outPullN rmt j
              else s.dist q j } := by
        unfold synch_distance_body
        rw [if_neg hrp]
      rw [hb]
      obtain ⟨hdist, hn, hδ, hbw, hlv, hdo, hop, hip, hon, hin, hos, his⟩ :=
        ih { s with dist := fun q j =>
              if q = rmt ∧ j < cfg.obCnt par.id rmt then s.outPullN rmt j
              else s.dist q j } hnd2
      refine ⟨?_, hn, hδ, hbw, hlv, hdo, hop, hip, hon, hin, hos, his⟩
      rw [hdist]
      funext q j
      by_cases hq2 : q ∈ l2 ∧ q ≠ par.id ∧ j < cfg.obCnt par.id q
      · rw [if_pos hq2, if_pos ⟨List.mem_cons_of_mem rmt hq2.1, hq2.2⟩]
      · rw [if_neg hq2]
        show (if q = rmt ∧ j < cfg.obCnt par.id rmt then s.outPullN rmt j
          else s.dist q j) =
          (if q ∈ rmt :: l2 ∧ q ≠ par.id ∧ j < cfg.obCnt par.id q
          then s.outPullN q j else s.dist q j)
        by_cases hqr : q = rmt ∧ j < cfg.obCnt par.id rmt
        · rw [if_pos hqr]
          have hcond : q ∈ rmt :: l2 ∧ q ≠ par.id ∧ j < cfg.obCnt par.id q := by
            refine ⟨List.mem_cons.mpr (Or.inl hqr.1), ?_, ?_⟩
            · rw [hqr.1]; exact hrp
            · rw [hqr.1]; exact hqr.2
          rw [if_pos hcond, hqr.1]
        · rw [if_neg hqr]
          have : ¬(q ∈ rmt :: l2 ∧ q ≠ par.id ∧ j < cfg.obCnt par.id q) := by
            intro hc
            rcases List.mem_cons.mp hc.1 with hqr2 | hql
            · exact hqr ⟨hqr2, hqr2 ▸ hc.2.2⟩
            · exact hq2 ⟨hql, hc.2⟩
          rw [if_neg this]

theorem sync_ss1_facts (cfg : engine_t) (gs : ℕ → betweenness_state_t) (p : ℕ)
    (hp : p < cfg.pcount) :
    (sync_distance_superstep cfg 1 gs p).dist = (gs p).dist ∧
    (sync_distance_superstep cfg 1 gs p).numSPs = (gs p).numSPs ∧
    (sync_distance_superstep cfg 1 gs p).delta = (gs p).delta ∧
    (sync_distance_superstep cfg 1 gs p).betweenness = (gs p).betweenness ∧
    (sync_distance_superstep cfg 1 gs p).level = (gs p).level ∧
    (sync_distance_superstep cfg 1 gs p).done = (gs p).done ∧
    (sync_distance_superstep cfg 1 gs p).outPush = (gs p).outPush ∧
    (sync_distance_superstep cfg 1 gs p).inPush = (gs p).inPush ∧
    (sync_distance_superstep cfg 1 gs p).outPullS = (gs p).outPullS ∧
    (sync_distance_superstep cfg 1 gs p).inPullS = (gs p).inPullS := by
  simp only [sync_distance_superstep, pull_exchangeN, betweenness_gather_distance,
    betweenness_synch_distance, if_pos hp]
  exact ⟨rfl, rfl, rfl, rfl, rfl, rfl, rfl, rfl, rfl, rfl⟩

theorem sync_ss1_inPullN (cfg : engine_t) (gs : ℕ → betweenness_state_t) (p : ℕ)
    (hp : p < cfg.pcount) (hidp : (cfg.parts p).id = p) :
    (sync_distance_superstep cfg 1 gs p).inPullN = fun q j =>
      if q < cfg.pcount ∧ q ≠ p ∧ j < cfg.obCnt q p
      then (gs p).dist p (cfg.obNbrs q p j)
      else (gs p).inPullN q j := by
  simp only [sync_distance_superstep, pull_exchangeN, betweenness_gather_distance,
    betweenness_synch_distance, if_pos hp, hidp, if_true]

theorem sync_ss1_outPullN (cfg : engine_t) (gs : ℕ → betweenness_state_t) (p : ℕ)
    (hp : p < cfg.pcount)
    (hid : ∀ r, r < cfg.pcount → (cfg.parts r).id = r) :
    ∀ q j, (sync_distance_superstep cfg 1 gs p).outPullN q j =
      if q < cfg.pcount ∧ q ≠ p ∧ j < cfg.obCnt p q
      then (gs q).dist q (cfg.obNbrs p q j)
      else (gs p).outPullN q j := by
  intro q j
  simp only [sync_distance_superstep, pull_exchangeN, if_pos hp]
  by_cases hreg : q < cfg.pcount ∧ q ≠ p ∧ j < cfg.obCnt p q
  · rw [if_pos hreg, if_pos hreg, if_pos hreg.1]
    simp only [betweenness_gather_distance, betweenness_synch_distance, hid q hreg.1, if_true]
    rw [if_pos ⟨hp, fun h => hreg.2.1 h.symm, hreg.2.2⟩]
  · rw [if_neg hreg, if_neg hreg]
    rfl

/-- The per-partition state after the kernel and gather of the second
distance-sync superstep (before the final pull exchange). -/
def sync_dist_G2 (cfg : engine_t) (gs : ℕ → betweenness_state_t) (r : ℕ) :
    betweenness_state_t :=
  if r < cfg.pcount then
    betweenness_gather_distance cfg (cfg.parts r)
      (betweenness_synch_distance cfg (cfg.parts r) 2 (sync_distance_superstep cfg 1 gs r))
  else sync_distance_superstep cfg 1 gs r

theorem sync_round_eq (cfg : engine_t) (gs : ℕ → betweenness_state_t) :
    sync_distance_round cfg gs = pull_exchangeN cfg (sync_dist_G2 cfg gs) := rfl

theorem sync_G2_dist (cfg : engine_t) (gs : ℕ → betweenness_state_t) (q : ℕ)
    (hq : q < cfg.pcount)
    (hid : ∀ r, r < cfg.pcount → (cfg.parts r).id = r) :
    (sync_dist_G2 cfg gs q).dist = fun r j =>
      if r < cfg.pcount ∧ r ≠ q ∧ j < cfg.obCnt q r
      then (gs r).dist r (cfg.obNbrs q r j)
      else (gs q).dist r j := by
  unfold sync_dist_G2
  rw [if_pos hq]
  show (betweenness_synch_distance cfg (cfg.parts q) 2 (sync_distance_superstep cfg 1 gs q)).dist = _
  obtain ⟨hdist, -⟩ :=
    synch_distance_fold_char cfg (cfg.parts q) (List.range cfg.pcount)
      (sync_distance_superstep cfg 1 gs q) (List.nodup_range cfg.pcount)
  show (List.foldl (synch_distance_body cfg (cfg.parts q))
      (sync_distance_superstep cfg 1 gs q) (List.range cfg.pcount)).dist = _
  rw [hdist]
  funext r j
  simp only [List.mem_range, hid q hq]
  by_cases hreg : r < cfg.pcount ∧ r ≠ q ∧ j < cfg.obCnt q r
  · rw [if_pos hreg, if_pos hreg, sync_ss1_outPullN cfg gs q hq hid r j, if_pos hreg]
  · rw [if_neg hreg, if_neg hreg, (sync_ss1_facts cfg gs q hq).1]

theorem sync_G2_inPullN (cfg : engine_t) (gs : ℕ → betweenness_state_t) (q : ℕ)
    (hq : q < cfg.pcount)
    (hid : ∀ r, r < cfg.pcount → (cfg.parts r).id = r) :
    (sync_dist_G2 cfg gs q).inPullN = fun r j =>
      if r < cfg.pcount ∧ r ≠ q ∧ j < cfg.obCnt r q
      then (gs q).dist q (cfg.obNbrs r q j)
      else (gs q).inPullN r j := by
  unfold sync_dist_G2
  rw [if_pos hq]
  obtain ⟨hdist, -, -, -, -, -, -, -, -, hin, -, -⟩ :=
    synch_distance_fold_char cfg (cfg.parts q) (List.range cfg.pcount)
      (sync_distance_superstep cfg 1 gs q) (List.nodup_range cfg.pcount)
  simp only [betweenness_gather_distance, hid q hq]
  show (fun r j =>
      if r < cfg.pcount ∧ r ≠ q ∧ j < cfg.obCnt r q then
        (List.foldl (synch_distance_body cfg (cfg.parts q))
          (sync_distance_superstep cfg 1 gs q) (List.range cfg.pcount)).dist q
          (cfg.obNbrs r q j)
      else (List.foldl (synch_distance_body cfg (cfg.parts q))
          (sync_distance_superstep cfg 1 gs q) (List.range cfg.pcount)).inPullN r j) = _
  rw [hdist, hin]
  funext r j
  by_cases hreg : r < cfg.pcount ∧ r ≠ q ∧ j < cfg.obCnt r q
  · rw [if_pos hreg, if_pos hreg]
    show (if q ∈ List.range cfg.pcount ∧ q ≠ (cfg.parts q).id ∧
        cfg.obNbrs r q j < cfg.obCnt (cfg.parts q).id q
      then (sync_distance_superstep cfg 1 gs q).outPullN q (cfg.obNbrs r q j)
      else (sync_distance_superstep cfg 1 gs q).dist q (cfg.obNbrs r q j)) = _
    rw [if_neg (show ¬(q ∈ List.range cfg.pcount ∧ q ≠ (cfg.parts q).id ∧
        cfg.obNbrs r q j < cfg.obCnt (cfg.parts q).id q) from
      fun hc => hc.2.1 (hid q hq).symm)]
    rw [(sync_ss1_facts cfg gs q hq).1]
  · rw [if_neg hreg, if_neg hreg, sync_ss1_inPullN cfg gs q hq (hid q hq)]
    show (if r < cfg.pcount ∧ r ≠ q ∧ j < cfg.obCnt r q
        then (gs q).dist q (cfg.obNbrs r q j) else (gs q).inPullN r j) = _
    rw [if_neg hreg]

theorem sync_G2_outPullN (cfg : engine_t) (gs : ℕ → betweenness_state_t) (q : ℕ)
    (hq : q < cfg.pcount)
    (hid : ∀ r, r < cfg.pcount → (cfg.parts r).id = r) :
    ∀ r j, (sync_dist_G2 cfg gs q).outPullN r j =
      if r < cfg.pcount ∧ r ≠ q ∧ j < cfg.obCnt q r
      then (gs r).dist r (cfg.obNbrs q r j)
      else (gs q).outPullN r j := by
  intro r j
  unfold sync_dist_G2
  rw [if_pos hq]
  obtain ⟨-, -, -, -, -, -, -, -, hout, -, -, -⟩ :=
    synch_distance_fold_char cfg (cfg.parts q) (List.range cfg.pcount)
      (sync_distance_superstep cfg 1 gs q) (List.nodup_range cfg.pcount)
  show (List.foldl (synch_distance_body cfg (cfg.parts q))
      (sync_distance_superstep cfg 1 gs q) (List.range cfg.pcount)).outPullN r j = _
  rw [hout, sync_ss1_outPullN cfg gs q hq hid r j]

theorem sync_G2_others (cfg : engine_t) (gs : ℕ → betweenness_state_t) (q : ℕ)
    (hq : q < cfg.pcount) :
    (sync_dist_G2 cfg gs q).numSPs = (gs q).numSPs ∧
    (sync_dist_G2 cfg gs q).delta = (gs q).delta ∧
    (sync_dist_G2 cfg gs q).betweenness = (gs q).betweenness ∧
    (sync_dist_G2 cfg gs q).level = (gs q).level ∧
    (sync_dist_G2 cfg gs q).done = (gs q).done ∧
    (sync_dist_G2 cfg gs q).outPush = (gs q).outPush ∧
    (sync_dist_G2 cfg gs q).inPush = (gs q).inPush ∧
    (sync_dist_G2 cfg gs q).outPullS = (gs q).outPullS ∧
    (sync_dist_G2 cfg gs q).inPullS = (gs q).inPullS := by
  unfold sync_dist_G2
  rw [if_pos hq]
  obtain ⟨-, hn, hδ, hb, hl, hdo, hop, hip, -, -, hos, his⟩ :=
    synch_distance_fold_char cfg (cfg.parts q) (List.range cfg.pcount)
      (sync_distance_superstep cfg 1 gs q) (List.nodup_range cfg.pcount)
  obtain ⟨-, hn1, hδ1, hb1, hl1, hdo1, hop1, hip1, hos1, his1⟩ := sync_ss1_facts cfg gs q hq
  refine ⟨?_, ?_, ?_, ?_, ?_, ?_, ?_, ?_, ?_⟩
  · show (List.foldl (synch_distance_body cfg (cfg.parts q))
        (sync_distance_superstep cfg 1 gs q) (List.range cfg.pcount)).numSPs = _
    rw [hn, hn1]
  · show (List.foldl (synch_distance_body cfg (cfg.parts q))
        (sync_distance_superstep cfg 1 gs q) (List.range cfg.pcount)).delta = _
    rw [hδ, hδ1]
  · show (List.foldl (synch_distance_body cfg (cfg.parts q))
        (sync_distance_superstep cfg 1 gs q) (List.range cfg.pcount)).betweenness = _
    rw [hb, hb1]
  · show (List.foldl (synch_distance_body cfg (cfg.parts q))
        (sync_distance_superstep cfg 1 gs q) (List.range cfg.pcount)).level = _
    rw [hl, hl1]
  · show (List.foldl (synch_distance_body cfg (cfg.parts q))
        (sync_distance_superstep cfg 1 gs q) (List.range cfg.pcount)).done = _
    rw [hdo, hdo1]
  · show (List.foldl (synch_distance_body cfg (cfg.parts q))
        (sync_distance_superstep cfg 1 gs q) (List.range cfg.pcount)).outPush = _
    rw [hop, hop1]
  · show (List.foldl (synch_distance_body cfg (cfg.parts q))
        (sync_distance_superstep cfg 1 gs q) (List.range cfg.pcount)).inPush = _
    rw [hip, hip1]
  · show (List.foldl (synch_distance_body cfg (cfg.parts q))
        (sync_distance_superstep cfg 1 gs q) (List.range cfg.pcount)).outPullS = _
    rw [hos, hos1]
  · show (List.foldl (synch_distance_body cfg (cfg.parts q))
        (sync_distance_superstep cfg 1 gs q) (List.range cfg.pcount)).inPullS = _
    rw [his, his1]

theorem sync_round_dist (cfg : engine_t) (gs : ℕ → betweenness_state_t) (p : ℕ)
    (hp : p < cfg.pcount)
    (hid : ∀ r, r < cfg.pcount → (cfg.parts r).id = r) :
    ∀ q j, (sync_distance_round cfg gs p).dist q j =
      if q < cfg.pcount ∧ q ≠ p ∧ j < cfg.obCnt p q
      then (gs q).dist q (cfg.obNbrs p q j)
      else (gs p).dist q j := by
  intro q j
  rw [sync_round_eq]
  unfold pull_exchangeN
  rw [if_pos hp]
  show (sync_dist_G2 cfg gs p).dist q j = _
  simp only [sync_G2_dist cfg gs p hp hid]

theorem sync_round_inPullN (cfg : engine_t) (gs : ℕ → betweenness_state_t) (p : ℕ)
    (hp : p < cfg.pcount)
    (hid : ∀ r, r < cfg.pcount → (cfg.parts r).id = r) :
    ∀ q j, (sync_distance_round cfg gs p).inPullN q j =
      if q < cfg.pcount ∧ q ≠ p ∧ j < cfg.obCnt q p
      then (gs p).dist p (cfg.obNbrs q p j)
      else (gs p).inPullN q j := by
  intro q j
  rw [sync_round_eq]
  unfold pull_exchangeN
  rw [if_pos hp]
  show (sync_dist_G2 cfg gs p).inPullN q j = _
  simp only [sync_G2_inPullN cfg gs p hp hid]

theorem sync_round_outPullN (cfg : engine_t) (gs : ℕ → betweenness_state_t) (p : ℕ)
    (hp : p < cfg.pcount)
    (hid : ∀ r, r < cfg.pcount → (cfg.parts r).id = r) :
    ∀ q j, (sync_distance_round cfg gs p).outPullN q j =
      if q < cfg.pcount ∧ q ≠ p ∧ j < cfg.obCnt p q
      then (gs q).dist q (cfg.obNbrs p q j)
      else (gs p).outPullN q j := by
  intro q j
  rw [sync_round_eq]
  unfold pull_exchangeN
  rw [if_pos hp]
  show (if q < cfg.pcount ∧ q ≠ p ∧ j < cfg.obCnt p q
      then (sync_dist_G2 cfg gs q).inPullN p j
      else (sync_dist_G2 cfg gs p).outPullN q j) = _
  by_cases hreg : q < cfg.pcount ∧ q ≠ p ∧ j < cfg.obCnt p q
  · rw [if_pos hreg, if_pos hreg]
    simp only [sync_G2_inPullN cfg gs q hreg.1 hid]
    rw [if_pos ⟨hp, fun h => hreg.2.1 h.symm, hreg.2.2⟩]
  · rw [if_neg hreg, if_neg hreg, sync_G2_outPullN cfg gs p hp hid q j, if_neg hreg]

theorem sync_round_others (cfg : engine_t) (gs : ℕ → betweenness_state_t) (p : ℕ)
    (hp : p < cfg.pcount) :
    (sync_distance_round cfg gs p).numSPs = (gs p).numSPs ∧
    (sync_distance_round cfg gs p).delta = (gs p).delta ∧
    (sync_distance_round cfg gs p).betweenness = (gs p).betweenness ∧
    (sync_distance_round cfg gs p).level = (gs p).level ∧
    (sync_distance_round cfg gs p).done = (gs p).done ∧
    (sync_distance_round cfg gs p).outPush = (gs p).outPush ∧
    (sync_distance_round cfg gs p).inPush = (gs p).inPush ∧
    (sync_distance_round cfg gs p).outPullS = (gs p).outPullS ∧
    (sync_distance_round cfg gs p).inPullS = (gs p).inPullS := by
  rw [sync_round_eq]
  unfold pull_exchangeN
  rw [if_pos hp]
  exact sync_G2_others cfg gs p hp

theorem sync_round_far (cfg : engine_t) (gs : ℕ → betweenness_state_t) (p : ℕ)
    (hp : ¬ p < cfg.pcount) :
    sync_distance_round cfg gs p = gs p := by
  simp only [sync_round_eq, pull_exchangeN, sync_dist_G2, sync_distance_superstep,
    if_neg hp]

/-- C9: the distance-synchronization round (gather the authoritative local
distance row into the pull buffers, exchange, copy the received pull values
into the remote mirrors, over two supersteps) is idempotent: running it twice
in succession yields exactly the state after the first run, for every engine
configuration whose partitions carry their own index as id and every global
state. -/
theorem claim_C9_sync_idempotent (cfg : engine_t)
    (hid : ∀ r, r < cfg.pcount → (cfg.parts r).id = r)
    (gs : ℕ → betweenness_state_t) :
    sync_distance_round cfg (sync_distance_round cfg gs) =
      sync_distance_round cfg gs := by
  funext p
  by_cases hp : p < cfg.pcount
  · have hauth : ∀ r z, r < cfg.pcount →
        (sync_distance_round cfg gs r).dist r z = (gs r).dist r z := by
      intro r z hr
      rw [sync_round_dist cfg gs r hr hid r z]
      exact if_neg (fun hc => hc.2.1 rfl)
    obtain ⟨hn, hδ, hb, hl, hdo, hop, hip, hos, his⟩ :=
      sync_round_others cfg (sync_distance_round cfg gs) p hp
    obtain ⟨hn1, hδ1, hb1, hl1, hdo1, hop1, hip1, hos1, his1⟩ :=
      sync_round_others cfg gs p hp
    apply betweenness_state_t.ext
    · funext q j
      rw [sync_round_dist cfg (sync_distance_round cfg gs) p hp hid q j,
          sync_round_dist cfg gs p hp hid q j]
      by_cases hreg : q < cfg.pcount ∧ q ≠ p ∧ j < cfg.obCnt p q
      · rw [if_pos hreg, if_pos hreg, hauth q (cfg.obNbrs p q j) hreg.1]
      · rw [if_neg hreg]
    · rw [hn, hn1]
    · rw [hδ, hδ1]
    · rw [hb, hb1]
    · rw [hl, hl1]
    · rw [hdo, hdo1]
    · rw [hop, hop1]
    · rw [hip, hip1]
    · funext q j
      rw [sync_round_outPullN cfg (sync_distance_round cfg gs) p hp hid q j,
          sync_round_outPullN cfg gs p hp hid q j]
      by_cases hreg : q < cfg.pcount ∧ q ≠ p ∧ j < cfg.obCnt p q
      · rw [if_pos hreg, if_pos hreg, hauth q (cfg.obNbrs p q j) hreg.1]
      · rw [if_neg hreg]
    · funext q j
      rw [sync_round_inPullN cfg (sync_distance_round cfg gs) p hp hid q j,
          sync_round_inPullN cfg gs p hp hid q j]
      by_cases hreg : q < cfg.pcount ∧ q ≠ p ∧ j < cfg.obCnt q p
      · rw [if_pos hreg, if_pos hreg, hauth p (cfg.obNbrs q p j) hp]
      · rw [if_neg hreg]
    · rw [hos, hos1]
    · rw [his, his1]
  · rw [sync_round_far cfg (sync_distance_round cfg gs) p hp]

/-- Witness for C9 at the concrete two-partition configuration exCfg and a
junk-filled global state. -/
theorem claim_C9_sync_idempotent_witness :
    sync_distance_round exCfg (sync_distance_round exCfg (fun _ => exJunk)) =
      sync_distance_round exCfg (fun _ => exJunk) :=
  claim_C9_sync_idempotent exCfg (by decide) (fun _ => exJunk)

/-- Modelled from the spec: the engine's PUSH-direction exchange.  Partition
q's outbox push buffer toward p becomes partition p's inbox push buffer from
q (obCnt q p slots). -/
def push_exchange (cfg : engine_t) (gs : ℕ → betweenness_state_t) :
    ℕ → betweenness_state_t :=
  fun p => if p < cfg.pcount then
    { gs p with inPush := fun q j =>
        if q < cfg.pcount ∧ q ≠ p ∧ j < cfg.obCnt q p then (gs q).outPush p j
        else (gs p).inPush q j }
  else gs p

/-- Modelled from the spec: one superstep of the forward round.  The engine
resets each partition's finished flag, runs the scatter hook on the inbox
delivered by the previous superstep, runs the forward kernel, and finally
exchanges the outboxes in the PUSH direction. -/
def forward_superstep (cfg : engine_t) (gs : ℕ → betweenness_state_t) :
    ℕ → betweenness_state_t :=
  push_exchange cfg (fun p => if p < cfg.pcount then
    betweenness_forward (cfg.parts p)
      (betweenness_scatter_forward cfg (cfg.parts p) { gs p with done := true })
  else gs p)

/-- All partitions report finished. -/
def all_done (cfg : engine_t) (gs : ℕ → betweenness_state_t) : Bool :=
  (List.range cfg.pcount).all (fun p => (gs p).done)

/-- Modelled from the spec: the engine runs forward supersteps until no
partition reports not finished (fuel bounds the recursion). -/
def forward_round (cfg : engine_t) : ℕ → (ℕ → betweenness_state_t) →
    (ℕ → betweenness_state_t)
  | 0, gs => gs
  | fuel + 1, gs =>
    let gs1 := forward_superstep cfg gs
    if all_done cfg gs1 then gs1 else forward_round cfg fuel gs1

/-- A fold whose every step preserves finite distance entries preserves them
globally. -/
theorem foldl_dist_preserve {α : Type}
    (f : betweenness_state_t → α → betweenness_state_t)
    (hf : ∀ t a q i, t.dist q i ≠ INF_COST → (f t a).dist q i = t.dist q i) :
    ∀ (l : List α) (t : betweenness_state_t) (q i : ℕ),
      t.dist q i ≠ INF_COST → (l.foldl f t).dist q i = t.dist q i := by
  intro l
  induction l with
  | nil => intro t q i _; rfl
  | cons a l2 ih =>
    intro t q i h
    have h1 := hf t a q i h
    have h2 := ih (f t a) q i (by rw [h1]; exact h)
    rw [List.foldl_cons, h2, h1]

/-- A single forward edge step only ever writes an INF_COST distance entry. -/
theorem forward_process_edge_dist_preserve (par : partition_t) (v : ℕ)
    (nbrEnc : ℕ × ℕ) (s : betweenness_state_t) (q i : ℕ)
    (h : s.dist q i ≠ INF_COST) :
    (forward_process_edge par v nbrEnc s).dist q i = s.dist q i := by
  obtain ⟨a, b⟩ := nbrEnc
  rw [forward_process_edge_eq par v a b s]
  by_cases hd : s.dist a b = INF_COST
  · rw [if_pos hd]
    have hne : ¬(q = a ∧ i = b) := by
      rintro ⟨rfl, rfl⟩; exact h hd
    by_cases hq : a = par.id
    · rw [if_pos hq]
      exact upd2_ne s.dist a b (s.level + 1) hne
    · rw [if_neg hq]
      exact upd2_ne s.dist a b (s.level + 1) hne
  · rw [if_neg hd]
    by_cases h2 : s.dist a b = s.level + 1
    · rw [if_pos h2]
      by_cases hq : a = par.id
      · rw [if_pos hq]
      · rw [if_neg hq]
    · rw [if_neg h2]

/-- The forward kernel hook only ever writes INF_COST distance entries. -/
theorem betweenness_forward_dist_preserve (par : partition_t)
    (s : betweenness_state_t) (q i : ℕ) (h : s.dist q i ≠ INF_COST) :
    (betweenness_forward par s).dist q i = s.dist q i := by
  unfold betweenness_forward
  by_cases hv : par.vertex_count = 0
  · rw [if_pos hv]
  · rw [if_neg hv]
    show (betweenness_forward_cpu par s).dist q i = _
    unfold betweenness_forward_cpu
    refine foldl_dist_preserve _ ?_ (List.range par.vertex_count) s q i h
    intro t v q' i' ht
    by_cases hl : t.dist par.id v = t.level
    · rw [if_pos hl]
      refine foldl_dist_preserve _ ?_ (edge_ids par v) t q' i' ht
      intro t2 e q2 i2 ht2
      exact forward_process_edge_dist_preserve par (t2.numSPs par.id v)
        (par.edges e) t2 q2 i2 ht2
    · rw [if_neg hl]

/-- A single forward scatter slot only ever writes an INF_COST distance
entry. -/
theorem betweenness_scatter_slot_dist_preserve (cfg : engine_t)
    (par : partition_t) (rmt i : ℕ) (s : betweenness_state_t) (q j : ℕ)
    (h : s.dist q j ≠ INF_COST) :
    (betweenness_scatter_slot cfg par rmt i s).dist q j = s.dist q j := by
  rw [betweenness_scatter_slot_eq cfg par rmt i s]
  by_cases h0 : s.inPush rmt i = 0
  · rw [if_pos h0]
  · rw [if_neg h0]
    by_cases hd : s.dist par.id (cfg.obNbrs rmt par.id i) = INF_COST
    · rw [if_pos hd]
      have hne : ¬(q = par.id ∧ j = cfg.obNbrs rmt par.id i) := by
        rintro ⟨rfl, rfl⟩; exact h hd
      exact upd2_ne s.dist par.id (cfg.obNbrs rmt par.id i) s.level hne
    · rw [if_neg hd]
      by_cases h2 : s.dist par.id (cfg.obNbrs rmt par.id i) = s.level
      · rw [if_pos h2]
      · rw [if_neg h2]

/-- The forward scatter hook only ever writes INF_COST distance entries. -/
theorem betweenness_scatter_forward_dist_preserve (cfg : engine_t)
    (par : partition_t) (s : betweenness_state_t) (q j : ℕ)
    (h : s.dist q j ≠ INF_COST) :
    (betweenness_scatter_forward cfg par s).dist q j = s.dist q j := by
  unfold betweenness_scatter_forward
  by_cases hv : par.vertex_count = 0
  · rw [if_pos hv]
  · rw [if_neg hv]
    refine foldl_dist_preserve _ ?_ (List.range cfg.pcount) s q j h
    intro t rmt q' j' ht
    by_cases hr : rmt = par.id ∨ cfg.obCnt rmt par.id = 0
    · rw [if_pos hr]
    · rw [if_neg hr]
      unfold betweenness_scatter_cpu
      refine foldl_dist_preserve _ ?_ (List.range (cfg.obCnt rmt par.id)) t q' j' ht
      intro t2 i q2 j2 ht2
      exact betweenness_scatter_slot_dist_preserve cfg par rmt i t2 q2 j2 ht2

/-- C5 counterexample: on the two-partition cycle exCfg with source (1, 0),
after the forward round terminates, partition 0's remote mirror entry for
partition 1's vertex 0 (the source) holds the finite value 2: partition 0
discovered its own vertex at distance 1 in superstep 2 and its kernel then
wrote level + 1 = 2 into the source's mirror, because the mirror (not the
owner's authoritative array, which holds 0) was still INF_COST.  The
distance-synchronization sweep then overwrites that entry with the owner's
authoritative value 0 - a finite value replaced by a different finite value,
refuting the claim. -/
theorem claim_C5_counterexample :
    (forward_round exCfg 4
        (betweenness_init_forward_all exCfg 1 0 (fun _ => exState1)) 0).dist 1 0
      = 2 ∧
    (2 : ℕ) ≠ INF_COST ∧
    (sync_distance_round exCfg
        (forward_round exCfg 4
          (betweenness_init_forward_all exCfg 1 0 (fun _ => exState1))) 0).dist 1 0
      = 0 ∧
    (0 : ℕ) ≠ INF_COST ∧ (0 : ℕ) ≠ 2 := by
  decide

/-- C5 (amended): the write discipline that actually holds for distance
entries within a source iteration.  The forward kernel and the forward
scatter never change a distance entry that already holds a finite
(non-INF_COST) value.  The distance-synchronization sweep never changes a
partition's authoritative local entries; every entry it does change is a
remote-mirror slot rewritten with the owning partition's authoritative value
- which can replace one finite value with a different finite value when the
kernel had optimistically written level + 1 into a stale mirror. -/
theorem claim_C5_dist_write_discipline (cfg : engine_t)
    (hid : ∀ r, r < cfg.pcount → (cfg.parts r).id = r) :
    (∀ (par : partition_t) (s : betweenness_state_t) (q i : ℕ),
      s.dist q i ≠ INF_COST →
      (betweenness_forward par s).dist q i = s.dist q i) ∧
    (∀ (par : partition_t) (s : betweenness_state_t) (q i : ℕ),
      s.dist q i ≠ INF_COST →
      (betweenness_scatter_forward cfg par s).dist q i = s.dist q i) ∧
    (∀ (gs : ℕ → betweenness_state_t) (p : ℕ), p < cfg.pcount → ∀ j,
      (sync_distance_round cfg gs p).dist p j = (gs p).dist p j) ∧
    (∀ (gs : ℕ → betweenness_state_t) (p : ℕ), p < cfg.pcount → ∀ q j,
      (sync_distance_round cfg gs p).dist q j = (gs p).dist q j ∨
      (sync_distance_round cfg gs p).dist q j = (gs q).dist q (cfg.obNbrs p q j)) := by
  refine ⟨?_, ?_, ?_, ?_⟩
  · intro par s q i h
    exact betweenness_forward_dist_preserve par s q i h
  · intro par s q i h
    exact betweenness_scatter_forward_dist_preserve cfg par s q i h
  · intro gs p hp j
    rw [sync_round_dist cfg gs p hp hid p j]
    exact if_neg (fun hc => hc.2.1 rfl)
  · intro gs p hp q j
    rw [sync_round_dist cfg gs p hp hid q j]
    by_cases hreg : q < cfg.pcount ∧ q ≠ p ∧ j < cfg.obCnt p q
    · exact Or.inr (if_pos hreg)
    · exact Or.inl (if_neg hreg)

/-- Witness for the amended C5 at a concrete partition and state: vertex 0 of
exParB has the finite distance 1, and the forward kernel leaves the entry
unchanged. -/
theorem claim_C5_dist_write_discipline_witness :
    exStateB.dist 0 0 ≠ INF_COST ∧
    (betweenness_forward exParB exStateB).dist 0 0 = exStateB.dist 0 0 := by
  refine ⟨by decide, ?_⟩
  exact (claim_C5_dist_write_discipline exCfg (by decide)).1 exParB exStateB 0 0
    (by decide)

/-- error_t: the engine's status code (engine headers, outside src/). -/
inductive error_t : Type
  | SUCCESS : error_t
  | FAILURE : error_t
deriving DecidableEq

/-- Modelled from the spec: betweenness_check_special_cases (centrality
helpers, not under src/).  Trivial inputs (zero or one vertex, or an edgeless
graph) short-circuit to a zero-filled output (untouched and of size 0 for the
empty graph) with SUCCESS; the returned flag tells betweenness_hybrid whether
it is finished.  Result: (status, finished, score). -/
def betweenness_check_special_cases (Vtotal Etotal : ℕ) (score : ℕ → ℚ) :
    error_t × Bool × (ℕ → ℚ) :=
  if Vtotal = 0 then (error_t.SUCCESS, true, score)
  else if Vtotal = 1 ∨ Etotal = 0 then
    (error_t.SUCCESS, true, fun v => if v < Vtotal then 0 else score v)
  else (error_t.SUCCESS, false, score)

/-- betweenness_init: the first-iteration allocation hook.  calloc zeroes
delta[par->id] and betweenness over the local vertex count and every numSPs
view (local array and remote mirrors); the distance arrays are malloc'ed
(uninitialized, so left as they are); finally betweenness_init_forward runs. -/
def betweenness_init (cfg : engine_t) (src_pid src_vid : ℕ) (par : partition_t)
    (s : betweenness_state_t) : betweenness_state_t :=
  if par.vertex_count = 0 then s else
  betweenness_init_forward cfg src_pid src_vid par
    { s with
      delta := fun v => if v < par.vertex_count then 0 else s.delta v
      betweenness := fun v => if v < par.vertex_count then 0 else s.betweenness v
      numSPs := fun q j =>
        if q < cfg.pcount ∧
            j < (if q = par.id then par.vertex_count else cfg.obCnt par.id q)
        then 0 else s.numSPs q j }

/-- betweenness_init_backward: zero the local delta values. -/
def betweenness_init_backward (par : partition_t) (s : betweenness_state_t) :
    betweenness_state_t :=
  if par.vertex_count = 0 then s else
  { s with delta := fun v => if v < par.vertex_count then 0 else s.delta v }

/-- betweenness_hybrid_core: one source iteration.  Forward round (full init
on the first iteration, per-source init otherwise), the distance and numSPs
synchronization rounds, backward init and round, and, on the last iteration,
the aggregation of every partition's betweenness into the output array.  The
ℕ component counts the engine_execute calls (rounds) performed. -/
def betweenness_hybrid_core (cfg : engine_t) (fuel : ℕ) (src_pid src_vid : ℕ)
    (first isLast : Bool) (eps : ℚ) (num_samples Vtotal : ℕ)
    (gs : ℕ → betweenness_state_t) (score : ℕ → ℚ) :
    (ℕ → betweenness_state_t) × (ℕ → ℚ) × ℕ :=
  let gs1 := fun p => if p < cfg.pcount then
      (if first then betweenness_init cfg src_pid src_vid (cfg.parts p) (gs p)
       else betweenness_init_forward cfg src_pid src_vid (cfg.parts p) (gs p))
    else gs p
  let gs2 := forward_round cfg fuel gs1
  let gs3 := sync_distance_round cfg gs2
  let gs4 := sync_numSPs_round cfg gs3
  let gs5 := fun p => if p < cfg.pcount then
      betweenness_init_backward (cfg.parts p) (gs4 p) else gs4 p
  let gs6 := (backward_round_aux cfg fuel 1 gs5).1
  let score1 := if isLast then
      (List.range cfg.pcount).foldl (fun sc p =>
        betweenness_aggr eps num_samples Vtotal (cfg.parts p) (gs6 p) sc) score
    else score
  (gs6, score1, 4)

/-- betweenness_hybrid: check special cases and short-circuit when finished;
otherwise zero the output array and run one core iteration per source (every
vertex in exact mode, num_samples sampled vertices otherwise), flagging the
first and last iterations.  locOf is engine_vertex_id_in_partition; the final
ℕ counts the engine rounds executed. -/
def betweenness_hybrid (cfg : engine_t) (locOf : ℕ → ℕ × ℕ) (fuel : ℕ)
    (Vtotal Etotal : ℕ) (eps : ℚ) (num_samples : ℕ) (sample : ℕ → ℕ)
    (gs : ℕ → betweenness_state_t) (score : ℕ → ℚ) :
    error_t × (ℕ → ℚ) × ℕ :=
  let chk := betweenness_check_special_cases Vtotal Etotal score
  if chk.2.1 then (chk.1, chk.2.2, 0) else
  let score0 : ℕ → ℚ := fun v => if v < Vtotal then 0 else score v
  let srcs : List ℕ := if eps = CENTRALITY_EXACT then List.range Vtotal
    else (List.range num_samples).map sample
  let n := srcs.length
  let res := (List.range n).foldl (fun acc k =>
    let src := srcs.getD k 0
    let c := betweenness_hybrid_core cfg fuel (locOf src).1 (locOf src).2
      (k == 0) (k == n - 1) eps num_samples Vtotal acc.1 acc.2.1
    (c.1, c.2.1, acc.2.2 + c.2.2)) (gs, score0, 0)
  (error_t.SUCCESS, res.2.1, res.2.2)

/-- C8: on a trivial input (zero or one vertex) betweenness_hybrid
short-circuits before any forward or backward round: the round counter stays
0, the returned status is SUCCESS, and every entry of the output array is
zero. -/
theorem claim_C8_trivial_short_circuit (cfg : engine_t) (locOf : ℕ → ℕ × ℕ)
    (fuel Vtotal Etotal : ℕ) (eps : ℚ) (num_samples : ℕ) (sample : ℕ → ℕ)
    (gs : ℕ → betweenness_state_t) (score : ℕ → ℚ)
    (htriv : Vtotal ≤ 1) :
    (betweenness_hybrid cfg locOf fuel Vtotal Etotal eps num_samples sample
        gs score).1 = error_t.SUCCESS ∧
    (betweenness_hybrid cfg locOf fuel Vtotal Etotal eps num_samples sample
        gs score).2.2 = 0 ∧
    (∀ v, v < Vtotal →
      (betweenness_hybrid cfg locOf fuel Vtotal Etotal eps num_samples sample
        gs score).2.1 v = 0) := by
  rcases Nat.le_one_iff_eq_zero_or_eq_one.mp htriv with h0 | h1
  · subst h0
    refine ⟨rfl, rfl, ?_⟩
    intro v hv
    omega
  · subst h1
    refine ⟨rfl, rfl, ?_⟩
    intro v hv
    have hv0 : v = 0 := by omega
    subst hv0
    rfl

/-- Witness for C8: a single-vertex input on exCfg short-circuits to SUCCESS,
zero rounds and a zeroed output entry. -/
theorem claim_C8_trivial_short_circuit_witness :
    (1 : ℕ) ≤ 1 ∧
    ((betweenness_hybrid exCfg (fun v => (0, v)) 2 1 0 0 0 (fun _ => 0)
        (fun _ => exJunk) (fun _ => 7)).1 = error_t.SUCCESS ∧
     (betweenness_hybrid exCfg (fun v => (0, v)) 2 1 0 0 0 (fun _ => 0)
        (fun _ => exJunk) (fun _ => 7)).2.2 = 0 ∧
     (∀ v, v < 1 →
       (betweenness_hybrid exCfg (fun v => (0, v)) 2 1 0 0 0 (fun _ => 0)
        (fun _ => exJunk) (fun _ => 7)).2.1 v = 0)) :=
  ⟨by decide, claim_C8_trivial_short_circuit exCfg (fun v => (0, v)) 2 1 0 0 0
    (fun _ => 0) (fun _ => exJunk) (fun _ => 7) (by decide)⟩
